import Mathlib

/-!
# The course record store of `main.go`

A shallow embedding of the record store of `src/main.go`: the record type
`MSDSCourse`, the two process-wide variables `data` (the collection) and
`index` (key to position), and the operations `createIndex`, `initS`,
`insert`, `deleteEntry`, `search`, `list`, `matchTel`, `saveCSVFile` and
`readCSVFile`.

Modelling decisions.

* The global variables `data` and `index` and the content of the file
  `CSVFILE` form one explicit `State` that every operation takes and returns.
* A Go `map[string]int` is a finite partial function; it is embedded as
  `String → Option Int`. Reading a key is application, `index[k] = v` is
  `Index.set`, `delete(index, k)` is `Index.delete`. A nil map reads like the
  empty map, and the source only ever writes to a map made by `make`.
* A Go slice is a `List`. `data[:i]` is `List.take`, `data[i+1:]` is
  `List.drop`, and a slice expression or element access whose bounds check
  fails is a run-time panic, modelled by the result `none`.
* `time.Now().Unix()`, the outcome of `os.Create` and the outcome of the
  writes to the file are inputs of the environment `Env` of one call.
* An `error` value is a `GoError`: one constructor for the values built by
  `fmt.Errorf`, one for the `*PathError` handed back by the `os` package, one
  for the `*ParseError` of the package `encoding/csv`.
* A Go string is a Lean `String`, so the embedding covers the strings that are
  well-formed UTF-8. The file `CSVFILE` holds a text, written and read through
  the embedding of the csv writer and reader of the Go standard library.
-/

namespace Msds

/-- The struct `MSDSCourse`: three string fields. -/
structure MSDSCourse where
  CID : String
  CNAME : String
  CPREREQ : String
deriving DecidableEq, Repr

/-- The slice type `MSDSCourseCatalog`. -/
abbrev MSDSCourseCatalog := List MSDSCourse

/-- The type of the global `index`, a `map[string]int`. -/
abbrev Index := String → Option Int

/-- The map built by `make(map[string]int)`: no key is present. -/
def Index.empty : Index := fun _ => none

/-- The assignment `m[k] = v`. -/
def Index.set (m : Index) (k : String) (v : Int) : Index :=
  fun k' => if k' = k then some v else m k'

/-- The builtin `delete(m, k)`. -/
def Index.delete (m : Index) (k : String) : Index :=
  fun k' => if k' = k then none else m k'

/-- The `error` values the store hands to its callers. -/
inductive GoError where
  /-- An error made by `fmt.Errorf`, with its message. -/
  | errorf (msg : String)
  /-- An error of the `os` package (`os.Create`), with its message. -/
  | pathError (msg : String)
  /-- A `*csv.ParseError` of the package `encoding/csv`, with the message of
  its cause. -/
  | parseError (msg : String)
deriving DecidableEq, Repr

/-- What one call reads from outside the program. -/
structure Env where
  /-- The value of `time.Now().Unix()`. -/
  now : Int
  /-- The error of `os.Create(filepath)`; `none` when the file is opened. -/
  createErr : Option String
  /-- The outcome of the writes to the opened file: `none` when every `Write`
  and the final `Flush` succeed; `some n` when a write fails after `n`
  characters of the text have reached the file. -/
  writeFail : Option Nat

/-- The process-wide state: the globals `data` and `index`, and the text held
by the file `CSVFILE` (`none` while the file does not exist). -/
structure State where
  data : MSDSCourseCatalog
  index : Index
  csvfile : Option String

/-- The call `strconv.FormatInt(n, 10)`: the decimal rendering of `n`. -/
def formatInt (n : Int) : String := toString n

/-! ### The package `encoding/csv`

`saveCSVFile` and `readCSVFile` go through `csv.NewWriter(f).Write` and
`csv.NewReader(f).ReadAll` of the Go standard library with their default
settings (`Comma = ','`, `UseCRLF = false`, `Comment = 0`,
`FieldsPerRecord = 0`, `LazyQuotes = false`, `TrimLeadingSpace = false`).
Both are embedded below on lists of characters. The special characters of the
format are ASCII, so that on well-formed UTF-8 text the byte positions the
library looks for are the character positions used here. -/

/-- The function `unicode.IsSpace`: the Latin-1 spaces and the characters of
the Unicode property White_Space. -/
def isSpace (c : Char) : Bool :=
  c == '\t' || c == '\n' || c == '\x0b' || c == '\x0c' || c == '\r' || c == ' ' ||
  c == '\u0085' || c == '\u00a0' || c == '\u1680' || ('\u2000' ≤ c && c ≤ '\u200a') ||
  c == '\u2028' || c == '\u2029' || c == '\u202f' || c == '\u205f' || c == '\u3000'

/-- The method `(*Writer).fieldNeedsQuotes`: the empty field needs none, the
field `\.` does, a field holding a newline, a carriage return, a quote or the
comma does, and otherwise a field does when its first character is a space. -/
def fieldNeedsQuotes (field : List Char) : Bool :=
  if field = [] then false
  else if field = ['\\', '.'] then true
  else if field.any (fun c => c == '\n' || c == '\r' || c == '"' || c == ',') then true
  else
    match field with
    | [] => false
    | c :: _ => isSpace c

/-- The body of a quoted field as `(*Writer).Write` emits it: a quote is
written twice; with `UseCRLF` unset a carriage return and a newline are
written as they are, like every other character. -/
def writeQuoted : List Char → List Char
  | [] => []
  | c :: cs => if c = '"' then '"' :: '"' :: writeQuoted cs else c :: writeQuoted cs

/-- One field as `(*Writer).Write` emits it. -/
def writeField (field : List Char) : List Char :=
  if fieldNeedsQuotes field then '"' :: (writeQuoted field ++ ['"']) else field

/-- The loop `for n, field := range record` of `(*Writer).Write`, from field
number `n` on: a comma before every field but the first. -/
def writeFields : Nat → List (List Char) → List Char
  | _, [] => []
  | n, field :: rest =>
    (if 0 < n then [','] else []) ++ writeField field ++ writeFields (n + 1) rest

/-- The method `(*Writer).Write`: the fields, then a newline. -/
def csvWrite (record : List (List Char)) : List Char :=
  writeFields 0 record ++ ['\n']

/-- The post-processing of `(*Reader).readLine`: a carriage return that ends
the input is dropped, and a line that ends in a carriage return and a newline
has the two replaced by the newline. -/
def normalizeLine : List Char → List Char
  | [] => []
  | c :: cs =>
    if c = '\r' ∧ (cs = [] ∨ cs = ['\n']) then cs else c :: normalizeLine cs

/-- The call `ReadSlice('\n')`: the input up to and including its first
newline (all of it when it holds none), and what follows. -/
def readSlice : List Char → List Char × List Char
  | [] => ([], [])
  | c :: cs =>
    if c = '\n' then ([c], cs) else (c :: (readSlice cs).1, (readSlice cs).2)

/-- The method `(*Reader).readLine`: the next line and the input left. The
empty line stands for the end of the input. -/
def readLine (input : List Char) : List Char × List Char :=
  (normalizeLine (readSlice input).1, (readSlice input).2)

/-- The calls `i := bytes.IndexByte(line, d)`, `line[:i]` and `line[i+1:]`:
the line before and after the first `d`, or `none` when `i < 0`. -/
def cut (d : Char) : List Char → Option (List Char × List Char)
  | [] => none
  | c :: cs =>
    if c = d then some ([], cs) else (cut d cs).map fun q => (c :: q.1, q.2)

/-- The slice `field[:len(field)-lengthNL(field)]`: the line without its
final newline. -/
def dropNL (line : List Char) : List Char :=
  if line.getLast? = some '\n' then line.dropLast else line

/-- The cause `ErrBareQuote`. -/
def errBareQuote : GoError := GoError.parseError "bare \" in non-quoted-field"

/-- The cause `ErrQuote`. -/
def errQuote : GoError := GoError.parseError "extraneous or missing \" in quoted-field"

/-- The cause `ErrFieldCount`. -/
def errFieldCount : GoError := GoError.parseError "wrong number of fields"

/-- The loop `parseField` of `(*Reader).readRecord`, one step per fuel unit.
The mode `none` stands at the start of a field of the current `line`; the mode
`some buf` stands inside a quoted field whose characters so far are `buf`.
`input` is the text not yet read and `acc` holds the fields already parsed.
The result is the record and the input left, or the parse error. Every step
shortens `line` or moves to the next line, so that a fuel above the number of
characters of `line` and `input` is never used up. -/
def parseField : Nat → Option (List Char) → List Char → List Char → List (List Char) →
    Except GoError (List (List Char) × List Char)
  | 0, _, _, _, _ => Except.error errQuote
  | fuel + 1, none, line, input, acc =>
    if line.head? = some '"' then
      parseField fuel (some []) line.tail input acc
    else
      match cut ',' line with
      | some (field, line1) =>
        if '"' ∈ field then Except.error errBareQuote
        else parseField fuel none line1 input (acc ++ [field])
      | none =>
        if '"' ∈ dropNL line then Except.error errBareQuote
        else Except.ok (acc ++ [dropNL line], input)
  | fuel + 1, some buf, line, input, acc =>
    match cut '"' line with
    | some (pre, line1) =>
      match line1 with
      | [] => Except.ok (acc ++ [buf ++ pre], input)
      | c :: line2 =>
        if c = '"' then parseField fuel (some (buf ++ pre ++ ['"'])) line2 input acc
        else if c = ',' then parseField fuel none line2 input (acc ++ [buf ++ pre])
        else if line1 = ['\n'] then Except.ok (acc ++ [buf ++ pre], input)
        else Except.error errQuote
    | none =>
      if line = [] then Except.error errQuote
      else parseField fuel (some (buf ++ line)) (readLine input).1 (readLine input).2 acc

/-- What one call of `(*Reader).readRecord` returns. -/
inductive ReadResult where
  /-- The error `io.EOF`: no record is left. -/
  | eof
  /-- A parse error. -/
  | fail (err : GoError)
  /-- A record, with the input left after it. -/
  | record (fields : List (List Char)) (rest : List Char)

/-- The method `(*Reader).readRecord` up to the field count check: empty lines
are skipped, the end of the input gives `io.EOF`, and the first line that is
not empty is parsed. -/
def readRecord : Nat → List Char → ReadResult
  | 0, _ => ReadResult.eof
  | fuel + 1, input =>
    if (readLine input).1 = [] then ReadResult.eof
    else if (readLine input).1 = ['\n'] then readRecord fuel (readLine input).2
    else
      match parseField ((readLine input).1.length + (readLine input).2.length + 1) none
          (readLine input).1 (readLine input).2 [] with
      | Except.error e => ReadResult.fail e
      | Except.ok (fields, rest) => ReadResult.record fields rest

/-- The loop of `(*Reader).ReadAll`, with the field count check of
`readRecord`: `expected` is `FieldsPerRecord`, set by the first record. -/
def readAllLoop : Nat → List Char → Option Nat → List (List (List Char)) →
    Except GoError (List (List (List Char)))
  | 0, _, _, records => Except.ok records
  | fuel + 1, input, expected, records =>
    match readRecord (input.length + 1) input with
    | ReadResult.eof => Except.ok records
    | ReadResult.fail e => Except.error e
    | ReadResult.record fields rest =>
      match expected with
      | none => readAllLoop fuel rest (some fields.length) (records ++ [fields])
      | some n =>
        if fields.length = n then readAllLoop fuel rest expected (records ++ [fields])
        else Except.error errFieldCount

/-- The method `(*Reader).ReadAll` on the text of a file. -/
def readAll (input : List Char) : Except GoError (List (List (List Char))) :=
  readAllLoop (input.length + 1) input none []

/-- The rows that the loop of `saveCSVFile` hands to the csv writer. -/
def rowsOf (data : MSDSCourseCatalog) : List (List (List Char)) :=
  data.map fun row => [row.CID.data, row.CNAME.data, row.CPREREQ.data]

/-- The text that the writer has produced once every row is written. -/
def csvWriteAll (rows : List (List (List Char))) : List Char :=
  rows.foldl (fun out row => out ++ csvWrite row) []

/-- Whether a text holds a carriage return immediately followed by a newline. -/
def hasCRLF : List Char → Bool
  | [] => false
  | c :: cs => (c == '\r' && cs.head? == some '\n') || hasCRLF cs

/-- A string in which no carriage return is immediately followed by a
newline. -/
def NoCRLF (s : String) : Prop := hasCRLF s.data = false

instance (s : String) : Decidable (NoCRLF s) := by
  unfold NoCRLF
  infer_instance

/-- A text as the csv writer leaves it: no carriage return immediately
followed by a newline, and a newline at the end unless the text is empty. -/
def WrittenText (text : List Char) : Prop :=
  hasCRLF text = false ∧ (text ≠ [] → text.getLast? = some '\n')

/-- The loop `parseField` standing in front of the text `text`: its current
line is `text` up to the first newline, the rest is still to be read. -/
def parseAt (fuel : Nat) (mode : Option (List Char)) (text : List Char)
    (acc : List (List Char)) : Except GoError (List (List Char) × List Char) :=
  parseField fuel mode (readSlice text).1 (readSlice text).2 acc

/-- What reaches the file `os.Create` has opened and truncated, out of the
text the csv writer produces: all of it when every write succeeds, and the
first `n` characters when a write fails after `n` characters (the buffered
writer then refuses every later write). -/
def reachesFile (env : Env) (text : List Char) : List Char :=
  match env.writeFail with
  | none => text
  | some n => text.take n

/-- The function `saveCSVFile`. When `os.Create` fails its error is returned
and nothing is written. Otherwise the file is truncated, one row
`[CID, CNAME, CPREREQ]` per record is handed to the csv writer, in the order
of `data`, and the file holds what reaches it of the text the writer
produces. The source drops the errors of `Write` and `Flush`
(`_ = csvwriter.Write(temp)`, `csvwriter.Flush()`) and returns `nil` whether
or not the writes succeed. -/
def saveCSVFile (env : Env) (s : State) : State × Option GoError :=
  match env.createErr with
  | some e => (s, some (GoError.pathError e))
  | none =>
    ({ s with csvfile := some (String.mk (reachesFile env (csvWriteAll (rowsOf s.data)))) },
      none)

/-- The loop `for _, line := range lines` of `readCSVFile`: one record per
row, appended to `data`. The result `none` is the run-time panic of the
element accesses `line[0]`, `line[1]`, `line[2]` on a row with fewer than
three fields. -/
def appendRows : List (List String) → MSDSCourseCatalog → Option MSDSCourseCatalog
  | [], data => some data
  | line :: rest, data =>
    match line with
    | a :: b :: c :: _ => appendRows rest (data ++ [{ CID := a, CNAME := b, CPREREQ := c }])
    | _ => none

/-- The function `readCSVFile`. `openErr` is the error of `os.Open`, if any;
`os.Stat` fails when the file does not exist. An error of `ReadAll` is
returned with `data` untouched. The result `none` is the run-time panic of
the loop over the rows. -/
def readCSVFile (openErr : Option String) (s : State) : Option (State × Option GoError) :=
  match s.csvfile with
  | none => some (s, some (GoError.pathError "stat ./data.csv: no such file or directory"))
  | some text =>
    match openErr with
    | some e => some (s, some (GoError.pathError e))
    | none =>
      match readAll text.data with
      | Except.error e => some (s, some e)
      | Except.ok lines =>
        match appendRows (lines.map fun row => row.map String.mk) s.data with
        | none => none
        | some data => some ({ s with data := data }, none)

/-- The loop `for i, k := range data { index[k.CID] = i }` of `createIndex`,
started at position `i` with the map `m`. -/
def createIndexLoop : List MSDSCourse → Nat → Index → Index
  | [], _, m => m
  | k :: rest, i, m => createIndexLoop rest (i + 1) (m.set k.CID (i : Int))

/-- The function `createIndex`: a fresh map filled by one pass over `data`.
The source always returns the error `nil`, which is left out. -/
def createIndex (s : State) : State :=
  { s with index := createIndexLoop s.data 0 Index.empty }

/-- The function `initS`; the result `nil` is `none`. -/
def initS (env : Env) (I N P : String) : Option MSDSCourse :=
  if P = "" ∨ N = "" then none
  else some { CID := I, CNAME := N, CPREREQ := formatInt env.now }

/-- What `insert` leaves behind: the state, the record its argument points
to, and the returned error (`none` for `nil`). -/
structure InsertResult where
  state : State
  pS : MSDSCourse
  err : Option GoError

/-- The function `insert`. The argument is the record behind the pointer `pS`,
a record that is not an element of `data` (as the ones made by `initS`). -/
def insert (env : Env) (s : State) (pS : MSDSCourse) : InsertResult :=
  match s.index pS.CID with
  | some _ =>
    { state := s, pS := pS, err := some (GoError.errorf (pS.CID ++ " already exists")) }
  | none =>
    let pS1 : MSDSCourse := { pS with CPREREQ := formatInt env.now }
    let s1 : State := { s with data := s.data ++ [pS1] }
    let s2 := createIndex s1
    let saved := saveCSVFile env s2
    { state := saved.1, pS := pS1, err := saved.2 }

/-- The function `deleteEntry`. The result `none` is the run-time panic of the
slice expressions `data[:i]` and `data[i+1:]`, raised when `i` is negative or
`i + 1` exceeds `len(data)`; otherwise the state and the returned error. -/
def deleteEntry (env : Env) (s : State) (key : String) : Option (State × Option GoError) :=
  match s.index key with
  | none => some (s, some (GoError.errorf (key ++ " cannot be found!")))
  | some i =>
    if i < 0 ∨ (s.data.length : Int) < i + 1 then none
    else
      let s1 : State :=
        { s with data := s.data.take i.toNat ++ s.data.drop (i.toNat + 1) }
      let s2 : State := { s1 with index := s1.index.delete key }
      some (saveCSVFile env s2)

/-- The function `search`. The result `none` is the run-time panic of the
element access `data[i]` when `i` is out of range; otherwise the state and the
record behind the returned pointer (`none` for `nil`). -/
def search (env : Env) (s : State) (key : String) : Option (State × Option MSDSCourse) :=
  match s.index key with
  | none => some (s, none)
  | some i =>
    if i < 0 then none
    else
      match s.data[i.toNat]? with
      | none => none
      | some r =>
        let r1 : MSDSCourse := { r with CPREREQ := formatInt env.now }
        some ({ s with data := s.data.set i.toNat r1 }, some r1)

/-- The index invariant of the data model: every record of the collection is
mapped by the index to its position, and the index holds no key that no
record of the collection carries. -/
def IndexInvariant (s : State) : Prop :=
  (∀ (i : Nat) (h : i < s.data.length), s.index (s.data.get ⟨i, h⟩).CID = some (i : Int)) ∧
  (∀ k : String, (s.index k).isSome → ∃ r ∈ s.data, r.CID = k)

/-- No two records of the collection carry the same key. -/
def NoDuplicateKeys (data : MSDSCourseCatalog) : Prop :=
  (data.map fun r => r.CID).Nodup

/-- The index holds exactly the keys of the collection, whatever positions it
records for them. -/
def SameKeys (s : State) : Prop :=
  ∀ k : String, (s.index k).isSome ↔ ∃ r ∈ s.data, r.CID = k

instance (data : MSDSCourseCatalog) : Decidable (NoDuplicateKeys data) := by
  unfold NoDuplicateKeys
  infer_instance

/-- Three sample records. -/
def recA : MSDSCourse := { CID := "A", CNAME := "Algebra", CPREREQ := "1" }

def recB : MSDSCourse := { CID := "B", CNAME := "Biology", CPREREQ := "2" }

def recC : MSDSCourse := { CID := "C", CNAME := "Calculus", CPREREQ := "3" }

/-- A sample environment in which the save goes through. -/
def envOk : Env := { now := 1700000000, createErr := none, writeFail := none }

/-- A sample environment in which `os.Create` fails. -/
def envFail : Env :=
  { now := 1700000000, createErr := some "open ./data.csv: permission denied",
    writeFail := none }

/-- A sample environment in which `os.Create` succeeds and the first write to
the file fails. -/
def envWriteFail : Env := { now := 1700000000, createErr := none, writeFail := some 0 }

/-- The state right after start-up on a collection: the index freshly built. -/
def freshState (data : MSDSCourseCatalog) : State :=
  createIndex { data := data, index := Index.empty, csvfile := none }

/-- A state left by a deletion: the collection `[B]` with `B` still mapped to
position 1, as `deleteEntry "A"` leaves it from the collection `[A, B]`. -/
def afterDeleteA : State :=
  { data := [recB],
    index := (freshState [recA, recB]).index.delete "A",
    csvfile := some "B,Biology,2\n" }

/-- The state that `deleteEntry "B"` leaves from the collection `[A, B, C]`
with its freshly built index when the save goes through. -/
def afterDeleteB : State :=
  { data := [recA, recC],
    index := (freshState [recA, recB, recC]).index.delete "B",
    csvfile := some "A,Algebra,1\nC,Calculus,3\n" }

/-- The function `list`: the loop appends one entry per record to `all`. It
reads the global `data` and writes no global; the state is handed back as it
was received. -/
def list (s : State) : State × String :=
  (s, s.data.foldl
    (fun all k => all ++ k.CID ++ " " ++ k.CNAME ++ " " ++ k.CPREREQ ++ "\n") "")

/-- One entry of the listing: `CID + " " + CNAME + " " + CPREREQ + "\n"`. -/
def listEntry (k : MSDSCourse) : String :=
  k.CID ++ " " ++ k.CNAME ++ " " ++ k.CPREREQ ++ "\n"

/-- The regular expression `\d+$` of `matchTel`, tried at one start position:
one or more decimal digits `0`..`9` that run up to the end of the text (with
no flag set, `$` stands for the end of the text only). -/
def digitsToEnd (t : List Char) : Bool :=
  !t.isEmpty && t.all Char.isDigit

/-- The function `matchTel`: `re.Match` looks for a match of `\d+$` starting at
any position of the text. -/
def matchTel (s : String) : Bool :=
  s.data.tails.any digitsToEnd

/-- The state the worked example starts from: no record, no key, and whatever
the file holds. -/
def emptyState (file : Option String) : State :=
  { data := [], index := Index.empty, csvfile := file }

/-- A second record with the key `A`. -/
def recA2 : MSDSCourse := { CID := "A", CNAME := "Analysis", CPREREQ := "4" }

/-- A collection in which the key `A` occurs twice, not yet indexed. -/
def dupState : State :=
  { data := [recA, recB, recA2], index := Index.empty, csvfile := none }

/-- The collection `[A, B]`, not yet indexed. -/
def plainState : State :=
  { data := [recA, recB], index := Index.empty, csvfile := none }

/-- A record whose name holds a carriage return followed by a newline. -/
def recCRLF : MSDSCourse := { CID := "A", CNAME := "x\r\ny", CPREREQ := "1" }

/-- The collection that holds `recCRLF` only, with no file yet. -/
def crlfState : State :=
  { data := [recCRLF], index := Index.empty, csvfile := none }

/-- A collection whose fields hold spaces, quotes, commas, newlines and
carriage returns, but no carriage return followed by a newline. -/
def quotedState : State :=
  { data := [recA, { CID := " x", CNAME := "a\"b,c\nd\re", CPREREQ := "" }, recB],
    index := Index.empty, csvfile := none }

/-- A state whose file holds one row of two fields. -/
def shortRowState : State :=
  { data := [], index := Index.empty, csvfile := some "A,Algebra\n" }

/-! ## Lemmas on the index -/

theorem createIndexLoop_append (l : List MSDSCourse) (r : MSDSCourse) (n : Nat) (m : Index) :
    createIndexLoop (l ++ [r]) n m
      = (createIndexLoop l n m).set r.CID ((n + l.length : Nat) : Int) := by
  induction l generalizing n m with
  | nil => simp [createIndexLoop]
  | cons a t ih =>
    have h := ih (n + 1) (m.set a.CID (n : Int))
    have e : n + 1 + t.length = n + (t.length + 1) := by omega
    rw [e] at h
    simpa [createIndexLoop] using h

theorem createIndexLoop_isSome (l : List MSDSCourse) (n : Nat) (m : Index) (k : String) :
    (createIndexLoop l n m k).isSome ↔ (∃ r ∈ l, r.CID = k) ∨ (m k).isSome := by
  induction l using List.reverseRecOn with
  | nil => simp [createIndexLoop]
  | append_singleton t a ih =>
    rw [createIndexLoop_append]
    by_cases hk : k = a.CID
    · subst hk
      simp only [Index.set, if_true, Option.isSome_some, true_iff]
      exact Or.inl ⟨a, by simp, rfl⟩
    · have hk' : ¬ a.CID = k := fun h => hk h.symm
      simp only [Index.set, hk, if_false, ih]
      constructor
      · rintro (⟨r, hr, hrk⟩ | hm)
        · exact Or.inl ⟨r, by simp [hr], hrk⟩
        · exact Or.inr hm
      · rintro (⟨r, hr, hrk⟩ | hm)
        · rcases List.mem_append.mp hr with hr | hr
          · exact Or.inl ⟨r, hr, hrk⟩
          · simp at hr
            subst hr
            exact absurd hrk hk'
        · exact Or.inr hm

theorem createIndexLoop_get (l : List MSDSCourse) (n : Nat) (m : Index)
    (hl : (l.map fun r => r.CID).Nodup) (i : Nat) (h : i < l.length) :
    createIndexLoop l n m (l.get ⟨i, h⟩).CID = some ((n + i : Nat) : Int) := by
  induction l using List.reverseRecOn generalizing i with
  | nil => simp at h
  | append_singleton t a ih =>
    rw [createIndexLoop_append]
    rw [List.map_append, List.nodup_append] at hl
    obtain ⟨ht, -, hdisj⟩ := hl
    by_cases hi : i < t.length
    · have hget : (t ++ [a]).get ⟨i, h⟩ = t.get ⟨i, hi⟩ := by
        simp [List.getElem_append_left hi]
      rw [hget]
      have hne : (t.get ⟨i, hi⟩).CID ≠ a.CID := by
        intro he
        have h1 : (t.get ⟨i, hi⟩).CID ∈ t.map fun r => r.CID :=
          List.mem_map.mpr ⟨_, List.get_mem t i hi, rfl⟩
        have h2 : (t.get ⟨i, hi⟩).CID ∈ [a].map fun r => r.CID := by
          rw [he]
          simp
        exact hdisj h1 h2
      simp only [Index.set, hne, if_false]
      exact ih ht i hi
    · have hlen : i = t.length := by
        simp at h
        omega
      subst hlen
      simp [Index.set]

theorem saveCSVFile_data (env : Env) (s : State) : (saveCSVFile env s).1.data = s.data := by
  unfold saveCSVFile
  cases env.createErr <;> rfl

theorem saveCSVFile_index (env : Env) (s : State) : (saveCSVFile env s).1.index = s.index := by
  unfold saveCSVFile
  cases env.createErr <;> rfl

theorem createIndex_invariant (s : State) (hl : NoDuplicateKeys s.data) :
    IndexInvariant (createIndex s) := by
  refine ⟨fun i h => ?_, fun k hk => ?_⟩
  · have := createIndexLoop_get s.data 0 Index.empty hl i h
    simpa [createIndex] using this
  · have := (createIndexLoop_isSome s.data 0 Index.empty k).mp hk
    simpa [createIndex, Index.empty] using this

theorem insert_data (env : Env) (s : State) (pS : MSDSCourse) (hnew : s.index pS.CID = none) :
    (insert env s pS).state.data = s.data ++ [{ pS with CPREREQ := formatInt env.now }] := by
  simp [insert, hnew, saveCSVFile_data, createIndex]

theorem insert_index (env : Env) (s : State) (pS : MSDSCourse) (hnew : s.index pS.CID = none) :
    (insert env s pS).state.index
      = createIndexLoop (s.data ++ [{ pS with CPREREQ := formatInt env.now }]) 0 Index.empty := by
  simp [insert, hnew, saveCSVFile_index, createIndex]

theorem IndexInvariant_of_eq {s t : State} (hd : s.data = t.data) (hi : s.index = t.index)
    (h : IndexInvariant t) : IndexInvariant s := by
  cases s
  cases t
  simp only at hd hi
  subst hd hi
  exact h

theorem freshState_sameKeys (data : MSDSCourseCatalog) : SameKeys (freshState data) := by
  intro k
  have := createIndexLoop_isSome data 0 Index.empty k
  simpa [freshState, createIndex, Index.empty] using this

theorem freshState_invariant (data : MSDSCourseCatalog) (hl : NoDuplicateKeys data) :
    IndexInvariant (freshState data) :=
  createIndex_invariant _ hl

/-- What `deleteEntry` computes when the key is mapped to a position within
the bounds of the collection. -/
theorem deleteEntry_eq (env : Env) (s : State) (key : String) (i : Int)
    (hi : s.index key = some i) (h0 : 0 ≤ i) (hlt : i < (s.data.length : Int)) :
    deleteEntry env s key
      = some (saveCSVFile env
          { s with data := s.data.take i.toNat ++ s.data.drop (i.toNat + 1),
                   index := s.index.delete key }) := by
  have hguard : ¬ (i < 0 ∨ (s.data.length : Int) < i + 1) := by omega
  simp only [deleteEntry, hi, hguard, if_false]

/-- Under the index invariant a key of the index is mapped to the position of
a record that carries it. -/
theorem IndexInvariant.position {s : State} (hinv : IndexInvariant s) {key : String} {i : Int}
    (hi : s.index key = some i) :
    ∃ (p : Nat) (hp : p < s.data.length), i = (p : Int) ∧ (s.data.get ⟨p, hp⟩).CID = key := by
  obtain ⟨r, hr, hrk⟩ := hinv.2 key (by simp [hi])
  obtain ⟨⟨p, hp⟩, hget⟩ := List.get_of_mem hr
  have h1 := hinv.1 p hp
  rw [hget, hrk, hi] at h1
  exact ⟨p, hp, by simpa using h1, by rw [hget, hrk]⟩

/-- Under the index invariant a key is carried by one position only. -/
theorem IndexInvariant.unique {s : State} (hinv : IndexInvariant s) {j p : Nat}
    (hj : j < s.data.length) (hp : p < s.data.length)
    (h : (s.data.get ⟨j, hj⟩).CID = (s.data.get ⟨p, hp⟩).CID) : j = p := by
  have h1 := hinv.1 j hj
  have h2 := hinv.1 p hp
  rw [h, h2] at h1
  simpa using h1.symm

/-- Under the index invariant, once the record at the position recorded for a
key is taken out, no record of the collection carries that key. -/
theorem IndexInvariant.eraseIdx_no_key {s : State} (hinv : IndexInvariant s) {key : String}
    {p : Nat} (hi : s.index key = some (p : Int)) :
    ∀ r ∈ s.data.eraseIdx p, r.CID ≠ key := by
  intro r hr hrk
  have hpos : ∀ (j : Nat) (hj : j < s.data.length), (s.data.get ⟨j, hj⟩).CID = key → j = p := by
    intro j hj h
    have h1 := hinv.1 j hj
    rw [h, hi] at h1
    simpa using h1.symm
  obtain ⟨j, hj⟩ := List.mem_iff_getElem?.mp hr
  rw [List.getElem?_eraseIdx] at hj
  split at hj
  · obtain ⟨hjl, hjr⟩ := List.getElem?_eq_some.mp hj
    have := hpos j hjl (by simpa [hjr] using hrk)
    omega
  · obtain ⟨hjl, hjr⟩ := List.getElem?_eq_some.mp hj
    have := hpos (j + 1) hjl (by simpa [hjr] using hrk)
    omega

/-- The function `initS` returns `nil` exactly when its third argument or its
second argument is the empty string. -/
theorem initS_eq_none_iff (env : Env) (I N P : String) :
    initS env I N P = none ↔ (P = "" ∨ N = "") := by
  unfold initS
  split <;> simp_all

/-! ## Claims on insert, deleteEntry and search -/

/-- C1 (the code departs from the claim): on the duplicate-free collection
`[A, B]` with its freshly built index, where the index invariant holds,
`deleteEntry "A"` succeeds and leaves the collection `[B]` with `B` still
mapped to position 1, while `createIndex` on the new collection maps `B` to
position 0; the index invariant does not hold afterwards. -/
theorem deleteEntry_breaks_index_invariant :
    NoDuplicateKeys (freshState [recA, recB]).data ∧
    IndexInvariant (freshState [recA, recB]) ∧
    ∃ s', deleteEntry envOk (freshState [recA, recB]) "A" = some (s', none) ∧
      s'.data = [recB] ∧ s'.index "B" = some 1 ∧
      (createIndex s').index "B" = some 0 ∧ ¬ IndexInvariant s' := by
  refine ⟨by decide, freshState_invariant _ (by decide), ?_⟩
  refine ⟨_, rfl, rfl, rfl, rfl, ?_⟩
  intro h
  have h0 := h.1 0 (by decide)
  revert h0
  decide

/-- C2 (the code departs from the claim): from the duplicate-free collection
`[A, B, C]` with its freshly built index, after the successful call
`deleteEntry "A"` the call `search "B"` returns a record whose CID is `"C"`,
and `search "C"` reads position 2 of a collection of length 2 and panics. -/
theorem search_after_delete_reads_stale_position :
    NoDuplicateKeys [recA, recB, recC] ∧
    ∃ s', deleteEntry envOk (freshState [recA, recB, recC]) "A" = some (s', none) ∧
      s'.data = [recB, recC] ∧
      (∃ s'' r, search envOk s' "B" = some (s'', some r) ∧ r.CID = "C") ∧
      s'.index "C" = some 2 ∧ search envOk s' "C" = none := by
  refine ⟨by decide, _, rfl, rfl, ⟨_, _, rfl, rfl⟩, rfl, rfl⟩

/-- C3: in a state whose collection has no duplicate keys and whose index
holds exactly the keys of the collection (whatever positions it records), an
insert of a record whose CID is not in the index that succeeds leaves the
index invariant: every record of the new collection is mapped to its
position and the index holds no key absent from the collection. -/
theorem insert_establishes_index_invariant (env : Env) (s : State) (pS : MSDSCourse)
    (hnodup : NoDuplicateKeys s.data) (hkeys : SameKeys s)
    (hnew : s.index pS.CID = none) (_hok : (insert env s pS).err = none) :
    IndexInvariant (insert env s pS).state := by
  have hfresh : ∀ r ∈ s.data, r.CID ≠ pS.CID := by
    intro r hr he
    have := (hkeys pS.CID).mpr ⟨r, hr, he⟩
    simp [hnew] at this
  have hnd : NoDuplicateKeys (s.data ++ [{ pS with CPREREQ := formatInt env.now }]) := by
    unfold NoDuplicateKeys at *
    rw [List.map_append, List.nodup_append]
    refine ⟨hnodup, by simp, ?_⟩
    intro k hk hk'
    obtain ⟨r, hr, rfl⟩ := List.mem_map.mp hk
    simp at hk'
    exact hfresh r hr hk'
  have hinv := createIndex_invariant
    { s with data := s.data ++ [{ pS with CPREREQ := formatInt env.now }] } hnd
  exact IndexInvariant_of_eq (insert_data env s pS hnew) (insert_index env s pS hnew) hinv

/-- C3 at a concrete input: the state left by a deletion (`B` recorded at the
stale position 1) and the new record `A`. -/
theorem insert_establishes_index_invariant_witness :
    NoDuplicateKeys afterDeleteA.data ∧ SameKeys afterDeleteA ∧
    afterDeleteA.index recA.CID = none ∧ afterDeleteA.index "B" = some 1 ∧
    IndexInvariant (insert envOk afterDeleteA recA).state :=
  have hk : SameKeys afterDeleteA := by
    intro k
    by_cases hA : k = "A"
    · subst hA
      decide
    · by_cases hB : k = "B"
      · subst hB
        simp [afterDeleteA, recB]
        decide
      · have hB' : ¬ "B" = k := fun h => hB h.symm
        simp [afterDeleteA, freshState, createIndex, createIndexLoop, Index.delete, Index.set,
          Index.empty, recA, recB, hA, hB, hB']
  ⟨by decide, hk, rfl, rfl,
    insert_establishes_index_invariant envOk afterDeleteA recA (by decide) hk rfl rfl⟩

/-- C4: for every state and every record with non-empty CID and CNAME whose
CID is not in the index, after a successful insert of the record the call
`search` on its CID returns a record, not `nil`, whose CID and CNAME are the
inserted ones. -/
theorem insert_then_search (env env' : Env) (s : State) (pS : MSDSCourse)
    (_hI : pS.CID ≠ "") (_hN : pS.CNAME ≠ "")
    (hnew : s.index pS.CID = none) (_hok : (insert env s pS).err = none) :
    ∃ s' r, search env' (insert env s pS).state pS.CID = some (s', some r) ∧
      r.CID = pS.CID ∧ r.CNAME = pS.CNAME := by
  have hidx : (insert env s pS).state.index pS.CID = some ((s.data.length : Nat) : Int) := by
    rw [insert_index env s pS hnew, createIndexLoop_append]
    simp [Index.set]
  have hget : (insert env s pS).state.data[s.data.length]?
      = some { pS with CPREREQ := formatInt env.now } := by
    rw [insert_data env s pS hnew]
    simp
  refine ⟨{ (insert env s pS).state with
      data := (insert env s pS).state.data.set s.data.length
        { pS with CPREREQ := formatInt env'.now } },
    { pS with CPREREQ := formatInt env'.now }, ?_, rfl, rfl⟩
  simp [search, hidx, hget]

/-- C4 at a concrete input: a stale state and the new record `A`. -/
theorem insert_then_search_witness :
    ∃ s' r, search envOk (insert envOk afterDeleteA recA).state "A" = some (s', some r) ∧
      r.CID = "A" ∧ r.CNAME = "Algebra" :=
  insert_then_search envOk envOk afterDeleteA recA (by decide) (by decide) rfl rfl

/-- C5: an insert of a record whose CID is already a key of the index returns
the duplicate-key error and leaves the whole state (collection, index and
file) and the record as they were. -/
theorem insert_duplicate_rejected (env : Env) (s : State) (pS : MSDSCourse)
    (hdup : (s.index pS.CID).isSome) :
    (insert env s pS).err = some (GoError.errorf (pS.CID ++ " already exists")) ∧
    (insert env s pS).state = s ∧ (insert env s pS).pS = pS := by
  obtain ⟨i, hi⟩ := Option.isSome_iff_exists.mp hdup
  simp [insert, hi]

/-- C5 at a concrete input: a second record with the key `A`. -/
theorem insert_duplicate_rejected_witness :
    (insert envFail (freshState [recA, recB]) { recC with CID := "A" }).err
        = some (GoError.errorf "A already exists") ∧
    (insert envFail (freshState [recA, recB]) { recC with CID := "A" }).state
        = freshState [recA, recB] ∧
    (insert envFail (freshState [recA, recB]) { recC with CID := "A" }).pS
        = { recC with CID := "A" } :=
  insert_duplicate_rejected envFail (freshState [recA, recB]) { recC with CID := "A" } rfl

/-- C6: for a key that is not a key of the index, `deleteEntry` returns the
not-found error and leaves the whole state as it was; and whenever
`deleteEntry` returns an error made by `fmt.Errorf`, the key is absent from
the index. -/
theorem deleteEntry_absent_key (env : Env) (s : State) (key : String) :
    (s.index key = none →
      deleteEntry env s key = some (s, some (GoError.errorf (key ++ " cannot be found!")))) ∧
    (∀ s' msg, deleteEntry env s key = some (s', some (GoError.errorf msg)) →
      s.index key = none) := by
  constructor
  · intro h
    simp [deleteEntry, h]
  · intro s' msg h
    cases hi : s.index key with
    | none => rfl
    | some i =>
      exfalso
      simp only [deleteEntry, hi] at h
      split at h
      · simp at h
      · simp only [saveCSVFile, Option.some.injEq] at h
        cases hc : env.createErr <;> simp [hc] at h

/-- C6 at a concrete input: the key `Z` on the collection `[A, B]`. -/
theorem deleteEntry_absent_key_witness :
    deleteEntry envOk (freshState [recA, recB]) "Z"
        = some (freshState [recA, recB], some (GoError.errorf "Z cannot be found!")) ∧
    (freshState [recA, recB]).index "Z" = none :=
  ⟨(deleteEntry_absent_key envOk (freshState [recA, recB]) "Z").1 rfl,
   (deleteEntry_absent_key envOk (freshState [recA, recB]) "Z").2
      (freshState [recA, recB]) "Z cannot be found!" rfl⟩

/-- C7: in a state where the index invariant holds, a successful
`deleteEntry` of a present key removes exactly one record, the one whose CID
is the key: that record sits at one position `p` only, the new collection is
one shorter, agrees with the old one before `p`, holds the old record of
position `j + 1` at every position `j` from `p` on, and no longer holds a
record with that key. -/
theorem deleteEntry_removes_exactly_one (env : Env) (s s' : State) (key : String)
    (hinv : IndexInvariant s) (hpres : (s.index key).isSome)
    (hok : deleteEntry env s key = some (s', none)) :
    ∃ (p : Nat) (hp : p < s.data.length),
      (s.data.get ⟨p, hp⟩).CID = key ∧
      (∀ (j : Nat) (hj : j < s.data.length), (s.data.get ⟨j, hj⟩).CID = key → j = p) ∧
      s'.data.length + 1 = s.data.length ∧
      (∀ j : Nat, j < p → s'.data[j]? = s.data[j]?) ∧
      (∀ j : Nat, p ≤ j → s'.data[j]? = s.data[j + 1]?) ∧
      (∀ r ∈ s'.data, r.CID ≠ key) := by
  obtain ⟨i, hi⟩ := Option.isSome_iff_exists.mp hpres
  obtain ⟨p, hp, hip, hkey⟩ := hinv.position hi
  subst hip
  rw [deleteEntry_eq env s key p hi (by omega) (by omega)] at hok
  have hdata : s'.data = s.data.eraseIdx p := by
    have := congrArg (fun o => o.map fun q => q.1.data) hok
    simp only [Option.map_some', saveCSVFile_data, Int.toNat_ofNat, Option.some.injEq] at this
    rw [← this, List.eraseIdx_eq_take_drop_succ]
  have huniq : ∀ (j : Nat) (hj : j < s.data.length), (s.data.get ⟨j, hj⟩).CID = key → j = p :=
    fun j hj h => hinv.unique hj hp (h.trans hkey.symm)
  refine ⟨p, hp, hkey, huniq, ?_, ?_, ?_, ?_⟩
  · rw [hdata, List.length_eraseIdx_of_lt hp]
    omega
  · intro j hj
    rw [hdata, List.getElem?_eraseIdx_of_lt _ _ _ hj]
  · intro j hj
    rw [hdata, List.getElem?_eraseIdx_of_ge _ _ _ hj]
  · rw [hdata]
    exact hinv.eraseIdx_no_key hi

/-- C7 at a concrete input: the key `B` on the collection `[A, B, C]`. -/
theorem deleteEntry_removes_exactly_one_witness :
    IndexInvariant (freshState [recA, recB, recC]) ∧
    deleteEntry envOk (freshState [recA, recB, recC]) "B" = some (afterDeleteB, none) ∧
    ∃ (p : Nat) (hp : p < (freshState [recA, recB, recC]).data.length),
      ((freshState [recA, recB, recC]).data.get ⟨p, hp⟩).CID = "B" ∧
      (∀ (j : Nat) (hj : j < (freshState [recA, recB, recC]).data.length),
        ((freshState [recA, recB, recC]).data.get ⟨j, hj⟩).CID = "B" → j = p) ∧
      afterDeleteB.data.length + 1 = (freshState [recA, recB, recC]).data.length ∧
      (∀ j : Nat, j < p → afterDeleteB.data[j]? = (freshState [recA, recB, recC]).data[j]?) ∧
      (∀ j : Nat, p ≤ j →
        afterDeleteB.data[j]? = (freshState [recA, recB, recC]).data[j + 1]?) ∧
      (∀ r ∈ afterDeleteB.data, r.CID ≠ "B") :=
  ⟨freshState_invariant _ (by decide), rfl,
    deleteEntry_removes_exactly_one envOk (freshState [recA, recB, recC]) afterDeleteB "B"
      (freshState_invariant _ (by decide)) rfl rfl⟩

/-- C8: for every state and every key, after a successful `deleteEntry` of
the key the call `search` on that key returns `nil` (and changes nothing). -/
theorem search_after_deleteEntry (env env' : Env) (s s' : State) (key : String)
    (hok : deleteEntry env s key = some (s', none)) :
    search env' s' key = some (s', none) := by
  cases hi : s.index key with
  | none => simp [deleteEntry, hi] at hok
  | some i =>
    simp only [deleteEntry, hi] at hok
    split at hok
    · simp at hok
    · have hidx : s'.index key = none := by
        have := congrArg (fun o => o.map fun q => q.1.index key) hok
        simp only [Option.map_some', saveCSVFile_index, Option.some.injEq] at this
        rw [← this]
        simp [Index.delete]
      simp [search, hidx]

/-- C8 at a concrete input: the key `B` on the collection `[A, B, C]`. -/
theorem search_after_deleteEntry_witness :
    deleteEntry envOk (freshState [recA, recB, recC]) "B" = some (afterDeleteB, none) ∧
    search envOk afterDeleteB "B" = some (afterDeleteB, none) :=
  ⟨rfl, search_after_deleteEntry envOk envOk (freshState [recA, recB, recC]) afterDeleteB "B" rfl⟩

/-- C9 (the code departs from the claim): `initS` tests its third argument,
the prerequisite, where the claim has it test the key. With an empty key and
a non-empty name and prerequisite it returns a record whose CID is empty; with
a non-empty key and name and an empty prerequisite it returns `nil`. -/
theorem initS_tests_prerequisite_instead_of_key :
    initS envOk "" "Intro" "none"
        = some { CID := "", CNAME := "Intro", CPREREQ := "1700000000" } ∧
    initS envOk "CS101" "Intro" "" = none := by
  constructor <;> rfl

theorem list_eq_join (s : State) : (list s).2 = String.join (s.data.map listEntry) := by
  have h : ∀ (l : List MSDSCourse) (acc : String),
      l.foldl (fun all k => all ++ k.CID ++ " " ++ k.CNAME ++ " " ++ k.CPREREQ ++ "\n") acc
        = (l.map listEntry).foldl (fun r x => r ++ x) acc := by
    intro l
    induction l with
    | nil => intro acc; rfl
    | cons a t ih =>
      intro acc
      simp only [List.foldl_cons, List.map_cons]
      rw [ih]
      simp [listEntry, String.append_assoc]
  exact h s.data ""

theorem IndexInvariant.sameKeys {s : State} (hinv : IndexInvariant s) : SameKeys s := by
  intro k
  constructor
  · exact hinv.2 k
  · rintro ⟨r, hr, rfl⟩
    obtain ⟨⟨p, hp⟩, hget⟩ := List.get_of_mem hr
    have := hinv.1 p hp
    rw [hget] at this
    simp [this]

/-- What `search` computes for a key mapped to a position of the collection. -/
theorem search_eq (env : Env) (s : State) (key : String) (p : Nat) (r : MSDSCourse)
    (hi : s.index key = some (p : Int)) (hget : s.data[p]? = some r) :
    search env s key
      = some ({ s with data := s.data.set p { r with CPREREQ := formatInt env.now } },
              some { r with CPREREQ := formatInt env.now }) := by
  simp [search, hi, hget]

/-- The loop of `createIndex` maps a key to the last position that carries it. -/
theorem createIndexLoop_last (l : List MSDSCourse) (n : Nat) (m : Index) (k : String)
    (p : Nat) (r : MSDSCourse) (hp : l[p]? = some r) (hk : r.CID = k)
    (hlast : ∀ (j : Nat) (r' : MSDSCourse), p < j → l[j]? = some r' → r'.CID ≠ k) :
    createIndexLoop l n m k = some ((n + p : Nat) : Int) := by
  induction l using List.reverseRecOn with
  | nil => simp at hp
  | append_singleton t a ih =>
    rw [createIndexLoop_append]
    have hplt : p < (t ++ [a]).length := (List.getElem?_eq_some.mp hp).1
    have hlen : (t ++ [a])[t.length]? = some a := by simp
    by_cases ha : a.CID = k
    · have hpe : p = t.length := by
        by_contra hne
        have hlt : p < t.length := by
          simp at hplt
          omega
        exact hlast t.length a hlt hlen ha
      subst hpe
      simp [Index.set, ha]
    · have hne : p ≠ t.length := by
        intro he
        subst he
        rw [hlen] at hp
        simp only [Option.some.injEq] at hp
        subst hp
        exact ha hk
      have hlt : p < t.length := by
        simp at hplt
        omega
      have hk' : ¬ k = a.CID := fun h => ha h.symm
      simp only [Index.set, hk', if_false]
      apply ih
      · rw [List.getElem?_append_left hlt] at hp
        exact hp
      · intro j r' hj hr'
        have hjl : j < t.length := (List.getElem?_eq_some.mp hr').1
        exact hlast j r' hj (by rw [List.getElem?_append_left hjl]; exact hr')

/-- Taking one position out of a collection keeps its keys distinct. -/
theorem NoDuplicateKeys.eraseIdx {data : MSDSCourseCatalog} (h : NoDuplicateKeys data)
    (p : Nat) : NoDuplicateKeys (data.eraseIdx p) := by
  unfold NoDuplicateKeys at *
  exact h.sublist ((List.eraseIdx_sublist data p).map _)

/-- Writing a record with the same key at a position keeps the keys as they are. -/
theorem map_CID_set (data : MSDSCourseCatalog) (p : Nat) (r r1 : MSDSCourse)
    (hget : data[p]? = some r) (hk : r1.CID = r.CID) :
    (data.set p r1).map (fun x => x.CID) = data.map fun x => x.CID := by
  apply List.ext_getElem?
  intro j
  simp only [List.getElem?_map, List.getElem?_set]
  by_cases hj : p = j
  · subst hj
    have hlt : p < data.length := (List.getElem?_eq_some.mp hget).1
    simp [hlt, hget, hk]
  · simp [hj]

/-- Appending a record whose key no record carries keeps the keys distinct. -/
theorem NoDuplicateKeys.append_new {data : MSDSCourseCatalog} (h : NoDuplicateKeys data)
    (x : MSDSCourse) (hfresh : ∀ r ∈ data, r.CID ≠ x.CID) : NoDuplicateKeys (data ++ [x]) := by
  unfold NoDuplicateKeys at *
  rw [List.map_append, List.nodup_append]
  refine ⟨h, by simp, ?_⟩
  intro k hk hk'
  obtain ⟨r, hr, rfl⟩ := List.mem_map.mp hk
  simp at hk'
  exact hfresh r hr hk'

/-- The state that a `deleteEntry` leaves when it does not panic. -/
theorem deleteEntry_some (env : Env) (s s' : State) (key : String) (err : Option GoError)
    (h : deleteEntry env s key = some (s', err)) :
    (s.index key = none ∧ s' = s) ∨
    (∃ i : Int, s.index key = some i ∧ s'.data = s.data.eraseIdx i.toNat ∧
      s'.index = s.index.delete key) := by
  cases hi : s.index key with
  | none =>
    left
    simp [deleteEntry, hi] at h
    exact ⟨rfl, h.1.symm⟩
  | some i =>
    right
    simp only [deleteEntry, hi] at h
    split at h
    · simp at h
    · have hd := congrArg (fun o => o.map fun q => q.1.data) h
      have hx := congrArg (fun o => o.map fun q => q.1.index) h
      simp only [Option.map_some', saveCSVFile_data, saveCSVFile_index,
        Option.some.injEq] at hd hx
      exact ⟨i, rfl, by rw [← hd, List.eraseIdx_eq_take_drop_succ], hx.symm⟩

/-! ## Claims on search, list, createIndex and the key set -/

/-- C14: in a state where the index invariant holds, `search` on a present
key finds the record with that key at some position `p` and changes only its
timestamp field: the record at `p` afterwards has the old CID and CNAME and
the decimal string of the current Unix time as CPREREQ, every other position
holds the record it held, the length, the index and the file are unchanged.
For a key absent from the index `search` returns `nil` and changes nothing. -/
theorem search_touches_only_timestamp (env : Env) (s : State) (key : String)
    (hinv : IndexInvariant s) :
    ((s.index key).isSome →
      ∃ (p : Nat) (old : MSDSCourse) (s' : State),
        s.data[p]? = some old ∧ old.CID = key ∧
        search env s key
          = some (s', some { CID := old.CID, CNAME := old.CNAME,
                             CPREREQ := formatInt env.now }) ∧
        s'.data[p]? = some { CID := old.CID, CNAME := old.CNAME,
                             CPREREQ := formatInt env.now } ∧
        (∀ j : Nat, j ≠ p → s'.data[j]? = s.data[j]?) ∧
        s'.data.length = s.data.length ∧ s'.index = s.index ∧ s'.csvfile = s.csvfile) ∧
    (s.index key = none → search env s key = some (s, none)) := by
  constructor
  · intro hpres
    obtain ⟨i, hi⟩ := Option.isSome_iff_exists.mp hpres
    obtain ⟨p, hp, hip, hkey⟩ := hinv.position hi
    subst hip
    have hget : s.data[p]? = some (s.data.get ⟨p, hp⟩) := by
      simp [List.getElem?_eq_getElem hp]
    refine ⟨p, s.data.get ⟨p, hp⟩, _, hget, hkey, search_eq env s key p _ hi hget, ?_, ?_, ?_,
      rfl, rfl⟩
    · simp [List.getElem?_set, hp]
    · intro j hj
      have hj' : ¬ p = j := fun h => hj h.symm
      simp [List.getElem?_set, hj']
    · simp
  · intro habs
    simp [search, habs]

/-- C14 at a concrete input: the key `B` on the collection `[A, B, C]`, and
the absent key `Z`. -/
theorem search_touches_only_timestamp_witness :
    (∃ (p : Nat) (old : MSDSCourse) (s' : State),
        (freshState [recA, recB, recC]).data[p]? = some old ∧ old.CID = "B" ∧
        search envOk (freshState [recA, recB, recC]) "B"
          = some (s', some { CID := old.CID, CNAME := old.CNAME,
                             CPREREQ := formatInt envOk.now }) ∧
        s'.data[p]? = some { CID := old.CID, CNAME := old.CNAME,
                             CPREREQ := formatInt envOk.now } ∧
        (∀ j : Nat, j ≠ p → s'.data[j]? = (freshState [recA, recB, recC]).data[j]?) ∧
        s'.data.length = (freshState [recA, recB, recC]).data.length ∧
        s'.index = (freshState [recA, recB, recC]).index ∧
        s'.csvfile = (freshState [recA, recB, recC]).csvfile) ∧
    search envOk (freshState [recA, recB, recC]) "Z"
      = some (freshState [recA, recB, recC], none) :=
  ⟨(search_touches_only_timestamp envOk (freshState [recA, recB, recC]) "B"
      (freshState_invariant _ (by decide))).1 rfl,
   (search_touches_only_timestamp envOk (freshState [recA, recB, recC]) "Z"
      (freshState_invariant _ (by decide))).2 rfl⟩

/-- C15: `list` returns the concatenation, in collection order, of one entry
`CID + " " + CNAME + " " + CPREREQ + "\n"` per record, the empty string for
the empty collection, and hands the state (collection, index, file) back
unchanged. -/
theorem list_renders_collection (s : State) :
    (list s).2 = String.join (s.data.map listEntry) ∧
    (list { s with data := [] }).2 = "" ∧
    (list s).1 = s :=
  ⟨list_eq_join s, rfl, rfl⟩

/-- C16: a successful insert of a record whose CID is not in the index
appends exactly one record: the new collection is the old one, in the same
order, followed by the record with the given CID and CNAME and the decimal
string of the current Unix time as CPREREQ, whatever prerequisite the
candidate carried. -/
theorem insert_appends_stamped_record (env : Env) (s : State) (pS : MSDSCourse)
    (hnew : s.index pS.CID = none) (_hok : (insert env s pS).err = none) :
    (insert env s pS).state.data
      = s.data ++ [{ CID := pS.CID, CNAME := pS.CNAME, CPREREQ := formatInt env.now }] ∧
    (insert env s pS).state.data.length = s.data.length + 1 := by
  have h := insert_data env s pS hnew
  refine ⟨h, ?_⟩
  rw [h]
  simp

/-- C16 at a concrete input: the record `C`, carrying the prerequisite `3`,
inserted after `[A, B]`. -/
theorem insert_appends_stamped_record_witness :
    (insert envOk (freshState [recA, recB]) recC).state.data
      = [recA, recB] ++ [{ CID := "C", CNAME := "Calculus", CPREREQ := "1700000000" }] ∧
    (insert envOk (freshState [recA, recB]) recC).state.data.length = 2 + 1 :=
  insert_appends_stamped_record envOk (freshState [recA, recB]) recC rfl rfl

/-- C17: the index built by `createIndex` holds exactly the CIDs that occur in
the collection, maps each of them to the greatest position at which a record
with that CID occurs, and so, for a collection without duplicate keys, maps
every record's CID to that record's position. -/
theorem createIndex_last_seen_wins (s : State) :
    (∀ k : String, ((createIndex s).index k).isSome ↔ ∃ r ∈ s.data, r.CID = k) ∧
    (∀ (k : String) (p : Nat) (r : MSDSCourse), s.data[p]? = some r → r.CID = k →
      (∀ (j : Nat) (r' : MSDSCourse), p < j → s.data[j]? = some r' → r'.CID ≠ k) →
      (createIndex s).index k = some (p : Int)) ∧
    (NoDuplicateKeys s.data → ∀ (p : Nat) (r : MSDSCourse), s.data[p]? = some r →
      (createIndex s).index r.CID = some (p : Int)) := by
  refine ⟨fun k => ?_, fun k p r hp hk hlast => ?_, fun hnd p r hp => ?_⟩
  · have := createIndexLoop_isSome s.data 0 Index.empty k
    simpa [createIndex, Index.empty] using this
  · have := createIndexLoop_last s.data 0 Index.empty k p r hp hk hlast
    simpa [createIndex] using this
  · obtain ⟨hlt, hget⟩ := List.getElem?_eq_some.mp hp
    have := createIndexLoop_get s.data 0 Index.empty hnd p hlt
    rw [List.get_eq_getElem, hget] at this
    simpa [createIndex] using this

/-- C17 at a concrete input: in `[A, B, A2]`, where `A2` carries the key `A`
again, the key `A` is mapped to position 2; in `[A, B]` the record `B` is
mapped to position 1. -/
theorem createIndex_last_seen_wins_witness :
    (createIndex dupState).index "A" = some 2 ∧
    (createIndex plainState).index recB.CID = some 1 :=
  ⟨(createIndex_last_seen_wins dupState).2.1 "A" 2 recA2 rfl rfl
      (fun j r' hj hr' => by
        have hlt := (List.getElem?_eq_some.mp hr').1
        simp [dupState] at hlt
        omega),
   (createIndex_last_seen_wins plainState).2.2 (by decide) 1 recB rfl⟩

/-- C18: key uniqueness is kept. From a state whose collection has no two
records with the same CID and whose index holds exactly the keys of the
collection, every successful `insert`, every successful `deleteEntry` and
every `search` that returns leaves a collection with no two records with the
same CID. -/
theorem key_uniqueness_preserved (s : State) (hnodup : NoDuplicateKeys s.data)
    (hkeys : SameKeys s) :
    (∀ (env : Env) (pS : MSDSCourse), (insert env s pS).err = none →
      NoDuplicateKeys (insert env s pS).state.data) ∧
    (∀ (env : Env) (key : String) (s' : State), deleteEntry env s key = some (s', none) →
      NoDuplicateKeys s'.data) ∧
    (∀ (env : Env) (key : String) (s' : State) (r : Option MSDSCourse),
      search env s key = some (s', r) → NoDuplicateKeys s'.data) := by
  refine ⟨fun env pS hok => ?_, fun env key s' hok => ?_, fun env key s' r hok => ?_⟩
  · have hnew : s.index pS.CID = none := by
      cases hi : s.index pS.CID with
      | none => rfl
      | some i => simp [insert, hi] at hok
    rw [insert_data env s pS hnew]
    apply hnodup.append_new
    intro r hr he
    have := (hkeys pS.CID).mpr ⟨r, hr, he⟩
    simp [hnew] at this
  · rcases deleteEntry_some env s s' key none hok with ⟨-, rfl⟩ | ⟨i, -, hd, -⟩
    · exact hnodup
    · rw [hd]
      exact hnodup.eraseIdx _
  · cases hi : s.index key with
    | none =>
      simp [search, hi] at hok
      rw [← hok.1]
      exact hnodup
    | some i =>
      simp only [search, hi] at hok
      split at hok
      · simp at hok
      · cases hget : s.data[i.toNat]? with
        | none => simp [hget] at hok
        | some old =>
          simp only [hget, Option.some.injEq, Prod.mk.injEq] at hok
          rw [← hok.1]
          show ((s.data.set i.toNat
            { CID := old.CID, CNAME := old.CNAME, CPREREQ := formatInt env.now }).map
              fun x => x.CID).Nodup
          rw [map_CID_set s.data i.toNat old
            { CID := old.CID, CNAME := old.CNAME, CPREREQ := formatInt env.now } hget rfl]
          exact hnodup

/-- C18 at a concrete input: on the collection `[A, B, C]` with its fresh
index, the insert of a record with the new key `D`, the deletion of `B` and
the search for `B`. -/
theorem key_uniqueness_preserved_witness :
    NoDuplicateKeys
      (insert envOk (freshState [recA, recB, recC]) { recA with CID := "D" }).state.data ∧
    NoDuplicateKeys afterDeleteB.data ∧
    (∀ (s' : State) (r : Option MSDSCourse),
      search envOk (freshState [recA, recB, recC]) "B" = some (s', r) →
      NoDuplicateKeys s'.data) :=
  ⟨(key_uniqueness_preserved (freshState [recA, recB, recC]) (by decide)
      (freshState_sameKeys _)).1 envOk { recA with CID := "D" } rfl,
   (key_uniqueness_preserved (freshState [recA, recB, recC]) (by decide)
      (freshState_sameKeys _)).2.1 envOk "B" afterDeleteB rfl,
   (key_uniqueness_preserved (freshState [recA, recB, recC]) (by decide)
      (freshState_sameKeys _)).2.2 envOk "B"⟩

/-- C20: in a state whose collection has no duplicate keys and where the
index invariant holds, after a successful `deleteEntry` of a present key the
index holds exactly the CIDs of the records that remain in the collection: no
stray key and no missing key, whatever positions it records. -/
theorem deleteEntry_key_set (env : Env) (s s' : State) (key : String)
    (_hnodup : NoDuplicateKeys s.data) (hinv : IndexInvariant s)
    (hpres : (s.index key).isSome) (hok : deleteEntry env s key = some (s', none)) :
    SameKeys s' := by
  obtain ⟨i, hi⟩ := Option.isSome_iff_exists.mp hpres
  obtain ⟨p, hp, hip, hkey⟩ := hinv.position hi
  subst hip
  rcases deleteEntry_some env s s' key none hok with ⟨hnone, -⟩ | ⟨i', hi', hd, hx⟩
  · rw [hi] at hnone
    simp at hnone
  · rw [hi] at hi'
    simp only [Option.some.injEq] at hi'
    subst hi'
    simp only [Int.toNat_ofNat] at hd
    intro k
    rw [hx, hd]
    by_cases hk : k = key
    · subst hk
      simp only [Index.delete, if_true, Option.isSome_none, Bool.false_eq_true, false_iff]
      rintro ⟨r, hr, hrk⟩
      exact hinv.eraseIdx_no_key hi r hr hrk
    · simp only [Index.delete, hk, if_false]
      rw [hinv.sameKeys k]
      constructor
      · rintro ⟨r, hr, hrk⟩
        refine ⟨r, ?_, hrk⟩
        obtain ⟨j, hj⟩ := List.mem_iff_getElem?.mp hr
        refine List.mem_eraseIdx_iff_getElem?.mpr ⟨j, ?_, hj⟩
        intro hjp
        subst hjp
        have hget : s.data[j]? = some (s.data.get ⟨j, hp⟩) := by
          simp [List.getElem?_eq_getElem hp]
        rw [hget] at hj
        simp only [Option.some.injEq] at hj
        rw [← hj] at hrk
        exact hk (hrk.symm.trans hkey)
      · rintro ⟨r, hr, hrk⟩
        exact ⟨r, List.mem_of_mem_eraseIdx hr, hrk⟩

/-- C20 at a concrete input: the key `B` deleted from `[A, B, C]`. -/
theorem deleteEntry_key_set_witness :
    deleteEntry envOk (freshState [recA, recB, recC]) "B" = some (afterDeleteB, none) ∧
    afterDeleteB.index "C" = some 2 ∧ SameKeys afterDeleteB :=
  ⟨rfl, rfl,
    deleteEntry_key_set envOk (freshState [recA, recB, recC]) afterDeleteB "B" (by decide)
      (freshState_invariant _ (by decide)) rfl rfl⟩

/-- C13: the worked example, for every clock value and with saves that go
through. From the empty collection and the empty index, the insert of the
record built from `("CS101", "Intro", "none")` succeeds; `list` then returns
the one line `CS101 Intro <timestamp>` with the decimal rendering of the Unix
time of the insert; the insert of the record built from
`("CS101", "Intro2", "none")` fails with the duplicate-key error and changes
nothing; `deleteEntry "CS101"` succeeds; and `search "CS101"` returns `nil`. -/
theorem worked_example (e1 e2 e3 e4 e5 e6 : Env) (file : Option String)
    (h2 : e2.createErr = none) (h5 : e5.createErr = none) :
    ∃ (r1 r2 : MSDSCourse) (s1 s2 : State),
      initS e1 "CS101" "Intro" "none" = some r1 ∧
      (insert e2 (emptyState file) r1).err = none ∧
      (insert e2 (emptyState file) r1).state = s1 ∧
      (list s1).2 = "CS101 Intro " ++ formatInt e2.now ++ "\n" ∧
      initS e3 "CS101" "Intro2" "none" = some r2 ∧
      (insert e4 s1 r2).err = some (GoError.errorf "CS101 already exists") ∧
      (insert e4 s1 r2).state = s1 ∧
      deleteEntry e5 s1 "CS101" = some (s2, none) ∧
      search e6 s2 "CS101" = some (s2, none) := by
  have hlist : ∀ t : String, "" ++ "CS101" ++ " " ++ "Intro" ++ " " ++ t ++ "\n"
      = "CS101 Intro " ++ t ++ "\n" := by
    intro t
    have : "" ++ "CS101" ++ " " ++ "Intro" ++ " " = "CS101 Intro " := by decide
    rw [this]
  refine ⟨{ CID := "CS101", CNAME := "Intro", CPREREQ := formatInt e1.now },
    { CID := "CS101", CNAME := "Intro2", CPREREQ := formatInt e3.now },
    { data := [{ CID := "CS101", CNAME := "Intro", CPREREQ := formatInt e2.now }],
      index := Index.empty.set "CS101" 0,
      csvfile := some (String.mk (reachesFile e2 (csvWriteAll (rowsOf
        [{ CID := "CS101", CNAME := "Intro", CPREREQ := formatInt e2.now }])))) },
    { data := [],
      index := (Index.empty.set "CS101" 0).delete "CS101",
      csvfile := some (String.mk (reachesFile e5 (csvWriteAll (rowsOf [])))) },
    ?_, ?_, ?_, ?_, ?_, ?_, ?_, ?_, ?_⟩
  · simp [initS]
  · simp [insert, emptyState, Index.empty, saveCSVFile, h2]
  · simp [insert, emptyState, Index.empty, saveCSVFile, h2, createIndex, createIndexLoop]
  · simp only [list, List.foldl_cons, List.foldl_nil]
    exact hlist _
  · simp [initS]
  · simp [insert, Index.set]
  · simp [insert, Index.set]
  · simp [deleteEntry, Index.set, saveCSVFile, h5]
  · simp [search, Index.delete]

/-- C13 at a concrete input: the clock at 1700000000 throughout, no file at the
start. -/
theorem worked_example_witness :
    ∃ (r1 r2 : MSDSCourse) (s1 s2 : State),
      initS envOk "CS101" "Intro" "none" = some r1 ∧
      (insert envOk (emptyState none) r1).err = none ∧
      (insert envOk (emptyState none) r1).state = s1 ∧
      (list s1).2 = "CS101 Intro " ++ formatInt envOk.now ++ "\n" ∧
      initS envOk "CS101" "Intro2" "none" = some r2 ∧
      (insert envOk s1 r2).err = some (GoError.errorf "CS101 already exists") ∧
      (insert envOk s1 r2).state = s1 ∧
      deleteEntry envOk s1 "CS101" = some (s2, none) ∧
      search envOk s2 "CS101" = some (s2, none) :=
  worked_example envOk envOk envOk envOk envOk envOk none rfl rfl

/-- C19: `matchTel` is true exactly for the strings that end in a decimal
digit, that is the non-empty strings whose last character is one of `0`..`9`.
It is false for the empty string and for digits followed by any other
character, a final newline included. -/
theorem matchTel_iff_last_is_digit (s : String) :
    (matchTel s = true ↔ ∃ c : Char, s.data.getLast? = some c ∧ '0' ≤ c ∧ c ≤ '9') ∧
    matchTel "" = false ∧ matchTel "2019\n" = false ∧ matchTel "12a" = false ∧
    matchTel "CS101" = true := by
  refine ⟨?_, by decide, by decide, by decide, by decide⟩
  have hdig : ∀ c : Char, c.isDigit = true ↔ ('0' ≤ c ∧ c ≤ '9') := by
    intro c
    simp [Char.isDigit, Char.le_def, UInt32.le_def]
  unfold matchTel
  rw [List.any_eq_true]
  constructor
  · rintro ⟨t, ht, hd⟩
    obtain ⟨pre, hpre⟩ := (List.mem_tails _ _).mp ht
    simp only [digitsToEnd, Bool.and_eq_true, Bool.not_eq_true', List.isEmpty_eq_false,
      List.all_eq_true] at hd
    obtain ⟨hne, hall⟩ := hd
    refine ⟨t.getLast hne, ?_, (hdig _).mp (hall _ (List.getLast_mem hne))⟩
    rw [← hpre, List.getLast?_append_of_ne_nil _ hne, List.getLast?_eq_getLast _ hne]
  · rintro ⟨c, hc, hd⟩
    refine ⟨[c], ?_, ?_⟩
    · rw [List.mem_tails]
      exact ⟨s.data.dropLast, List.dropLast_append_getLast? c hc⟩
    · simp [digitsToEnd, (hdig c).mpr hd]

/-! ## Lemmas on the csv writer and reader -/

theorem readSlice_cons_ne (c : Char) (text : List Char) (hc : c ≠ '\n') :
    readSlice (c :: text) = (c :: (readSlice text).1, (readSlice text).2) := by
  simp [readSlice, hc]

theorem readSlice_newline (text : List Char) : readSlice ('\n' :: text) = (['\n'], text) := by
  simp [readSlice]

theorem readSlice_append (a text : List Char) (ha : ∀ c ∈ a, c ≠ '\n') :
    readSlice (a ++ text) = (a ++ (readSlice text).1, (readSlice text).2) := by
  induction a with
  | nil => rfl
  | cons c t ih =>
    have hc : c ≠ '\n' := ha c (by simp)
    have ht : ∀ d ∈ t, d ≠ '\n' := fun d hd => ha d (by simp [hd])
    rw [List.cons_append, readSlice_cons_ne _ _ hc, ih ht]
    rfl

theorem readSlice_length (text : List Char) :
    (readSlice text).1.length + (readSlice text).2.length = text.length := by
  induction text with
  | nil => rfl
  | cons c t ih =>
    by_cases hc : c = '\n'
    · subst hc
      simp [readSlice_newline, Nat.add_comm]
    · rw [readSlice_cons_ne _ _ hc]
      simp only [List.length_cons]
      omega

theorem readSlice_eq_nil (text : List Char) (h : (readSlice text).1 = []) : text = [] := by
  cases text with
  | nil => rfl
  | cons c t =>
    by_cases hc : c = '\n'
    · subst hc
      simp [readSlice_newline] at h
    · rw [readSlice_cons_ne _ _ hc] at h
      simp at h

theorem readSlice_eq_newline (text : List Char) (h : (readSlice text).1 = ['\n']) :
    text.head? = some '\n' := by
  cases text with
  | nil => simp [readSlice] at h
  | cons c t =>
    by_cases hc : c = '\n'
    · subst hc
      rfl
    · rw [readSlice_cons_ne _ _ hc] at h
      simp only [List.cons.injEq] at h
      exact absurd h.1 hc

theorem WrittenText.tail {c : Char} {text : List Char} (h : WrittenText (c :: text)) :
    WrittenText text := by
  obtain ⟨h1, h2⟩ := h
  refine ⟨?_, fun hne => ?_⟩
  · simp only [hasCRLF, Bool.or_eq_false_iff] at h1
    exact h1.2
  · have := h2 (by simp)
    cases text with
    | nil => exact absurd rfl hne
    | cons d t => rwa [List.getLast?_cons_cons] at this

theorem WrittenText.of_append {a text : List Char} (h : WrittenText (a ++ text)) :
    WrittenText text := by
  induction a with
  | nil => exact h
  | cons c t ih => exact ih (WrittenText.tail h)

/-- On a text as the writer leaves it, `readLine` changes nothing in the line
that `ReadSlice` returns. -/
theorem normalizeLine_readSlice (text : List Char) (h : WrittenText text) :
    normalizeLine (readSlice text).1 = (readSlice text).1 := by
  induction text with
  | nil => rfl
  | cons c t ih =>
    by_cases hc : c = '\n'
    · subst hc
      rw [readSlice_newline]
      simp [normalizeLine]
    · rw [readSlice_cons_ne _ _ hc]
      have hcond : ¬ (c = '\r' ∧ ((readSlice t).1 = [] ∨ (readSlice t).1 = ['\n'])) := by
        rintro ⟨hr, hnil | hnl⟩
        · have ht := readSlice_eq_nil t hnil
          subst ht
          have := h.2 (by simp)
          simp at this
          exact hc this
        · have hh := readSlice_eq_newline t hnl
          have h1 := h.1
          simp [hasCRLF, hr, hh] at h1
      simp only [normalizeLine, hcond, if_false]
      rw [ih h.tail]

theorem readLine_eq_readSlice (text : List Char) (h : WrittenText text) :
    readLine text = readSlice text := by
  simp [readLine, normalizeLine_readSlice text h]

theorem cut_append (d : Char) (a rest : List Char) (ha : ∀ c ∈ a, c ≠ d) :
    cut d (a ++ d :: rest) = some (a, rest) := by
  induction a with
  | nil => simp [cut]
  | cons c t ih =>
    have hc : c ≠ d := ha c (by simp)
    have ht : ∀ x ∈ t, x ≠ d := fun x hx => ha x (by simp [hx])
    simp [cut, hc, ih ht]

theorem cut_eq_none (d : Char) (a : List Char) (ha : ∀ c ∈ a, c ≠ d) : cut d a = none := by
  induction a with
  | nil => rfl
  | cons c t ih =>
    have hc : c ≠ d := ha c (by simp)
    have ht : ∀ x ∈ t, x ≠ d := fun x hx => ha x (by simp [hx])
    simp [cut, hc, ih ht]

/-- Inside a quoted field, a character that is neither a quote nor a newline
goes to the buffer. -/
theorem parseAt_quoted_char (fuel : Nat) (buf : List Char) (c : Char) (text : List Char)
    (acc : List (List Char)) (hq : c ≠ '"') (hn : c ≠ '\n') (hne : text ≠ []) :
    parseAt (fuel + 1) (some buf) (c :: text) acc
      = parseAt (fuel + 1) (some (buf ++ [c])) text acc := by
  have hl : (readSlice text).1 ≠ [] := fun h => hne (readSlice_eq_nil text h)
  unfold parseAt
  rw [readSlice_cons_ne _ _ hn]
  simp only [parseField, cut, hq, if_false]
  cases hcut : cut '"' (readSlice text).1 with
  | none => simp [hl, List.append_assoc]
  | some q => simp [List.append_assoc]

/-- Inside a quoted field, a newline goes to the buffer and the next line is
read. -/
theorem parseAt_quoted_newline (fuel : Nat) (buf : List Char) (text : List Char)
    (acc : List (List Char)) (h : WrittenText text) :
    parseAt (fuel + 1) (some buf) ('\n' :: text) acc
      = parseAt fuel (some (buf ++ ['\n'])) text acc := by
  unfold parseAt
  rw [readSlice_newline]
  simp [parseField, cut, readLine_eq_readSlice text h]

/-- Inside a quoted field, two quotes stand for one. -/
theorem parseAt_quoted_quote (fuel : Nat) (buf : List Char) (text : List Char)
    (acc : List (List Char)) :
    parseAt (fuel + 1) (some buf) ('"' :: '"' :: text) acc
      = parseAt fuel (some (buf ++ ['"'])) text acc := by
  unfold parseAt
  rw [readSlice_cons_ne _ _ (by decide), readSlice_cons_ne _ _ (by decide)]
  simp [parseField, cut]

/-- A quote followed by a comma ends a quoted field. -/
theorem parseAt_quoted_comma (fuel : Nat) (buf : List Char) (text : List Char)
    (acc : List (List Char)) :
    parseAt (fuel + 1) (some buf) ('"' :: ',' :: text) acc
      = parseAt fuel none text (acc ++ [buf]) := by
  unfold parseAt
  rw [readSlice_cons_ne _ _ (by decide), readSlice_cons_ne _ _ (by decide)]
  simp [parseField, cut]

/-- A quote followed by a newline ends a quoted field and the record. -/
theorem parseAt_quoted_end (fuel : Nat) (buf : List Char) (text : List Char)
    (acc : List (List Char)) :
    parseAt (fuel + 1) (some buf) ('"' :: '\n' :: text) acc
      = Except.ok (acc ++ [buf], text) := by
  unfold parseAt
  rw [readSlice_cons_ne _ _ (by decide), readSlice_newline]
  simp [parseField, cut]

/-- A quote at the start of a field opens a quoted field. -/
theorem parseAt_open_quote (fuel : Nat) (text : List Char) (acc : List (List Char)) :
    parseAt (fuel + 1) none ('"' :: text) acc = parseAt fuel (some []) text acc := by
  unfold parseAt
  rw [readSlice_cons_ne _ _ (by decide)]
  simp [parseField]

/-- The body of a quoted field, as the writer emits it, is read back into the
buffer up to the closing quote. -/
theorem parseAt_quoted_body (g : List Char) :
    ∀ (fuel : Nat) (buf rest : List Char) (acc : List (List Char)),
      WrittenText (writeQuoted g ++ '"' :: rest) →
      (writeQuoted g ++ '"' :: rest).length < fuel →
      ∃ fuel', ('"' :: rest).length < fuel' ∧
        parseAt fuel (some buf) (writeQuoted g ++ '"' :: rest) acc
          = parseAt fuel' (some (buf ++ g)) ('"' :: rest) acc := by
  induction g with
  | nil =>
    intro fuel buf rest acc _ hf
    exact ⟨fuel, by simpa [writeQuoted] using hf, by simp [writeQuoted]⟩
  | cons c g ih =>
    intro fuel buf rest acc hw hf
    cases fuel with
    | zero => simp at hf
    | succ f =>
      by_cases hq : c = '"'
      · subst hq
        have he : writeQuoted ('"' :: g) ++ '"' :: rest
            = '"' :: '"' :: (writeQuoted g ++ '"' :: rest) := by simp [writeQuoted]
        rw [he] at hw hf ⊢
        rw [parseAt_quoted_quote]
        obtain ⟨f', hf', heq⟩ := ih f (buf ++ ['"']) rest acc hw.tail.tail
          (by simp only [List.length_cons] at hf ⊢; omega)
        exact ⟨f', hf', by rw [heq]; simp⟩
      · have he : writeQuoted (c :: g) ++ '"' :: rest
            = c :: (writeQuoted g ++ '"' :: rest) := by simp [writeQuoted, hq]
        rw [he] at hw hf ⊢
        by_cases hn : c = '\n'
        · subst hn
          rw [parseAt_quoted_newline _ _ _ _ hw.tail]
          obtain ⟨f', hf', heq⟩ := ih f (buf ++ ['\n']) rest acc hw.tail
            (by simp only [List.length_cons] at hf ⊢; omega)
          exact ⟨f', hf', by rw [heq]; simp⟩
        · rw [parseAt_quoted_char _ _ _ _ _ hq hn (by simp)]
          obtain ⟨f', hf', heq⟩ := ih (f + 1) (buf ++ [c]) rest acc hw.tail
            (by simp only [List.length_cons] at hf ⊢; omega)
          exact ⟨f', hf', by rw [heq]; simp⟩

/-- A field without quotes that is followed by a comma. -/
theorem parseAt_plain_comma (fuel : Nat) (g text : List Char) (acc : List (List Char))
    (hg : ∀ c ∈ g, c ≠ '\n' ∧ c ≠ '"' ∧ c ≠ ',') :
    parseAt (fuel + 1) none (g ++ ',' :: text) acc = parseAt fuel none text (acc ++ [g]) := by
  unfold parseAt
  rw [readSlice_append g _ (fun c hc => (hg c hc).1), readSlice_cons_ne _ _ (by decide)]
  have hhead : (g ++ ',' :: (readSlice text).1).head? ≠ some '"' := by
    cases g with
    | nil => simp
    | cons c t =>
      have := (hg c (by simp)).2.1
      simpa using this
  have hmem : ¬ '"' ∈ g := fun h => (hg _ h).2.1 rfl
  simp only [parseField, hhead, if_false, cut_append ',' g _ (fun c hc => (hg c hc).2.2), hmem]

/-- A field without quotes that ends the record. -/
theorem parseAt_plain_end (fuel : Nat) (g text : List Char) (acc : List (List Char))
    (hg : ∀ c ∈ g, c ≠ '\n' ∧ c ≠ '"' ∧ c ≠ ',') :
    parseAt (fuel + 1) none (g ++ '\n' :: text) acc = Except.ok (acc ++ [g], text) := by
  unfold parseAt
  rw [readSlice_append g _ (fun c hc => (hg c hc).1), readSlice_newline]
  have hhead : (g ++ ['\n']).head? ≠ some '"' := by
    cases g with
    | nil => simp
    | cons c t =>
      have := (hg c (by simp)).2.1
      simpa using this
  have hcut : cut ',' (g ++ ['\n']) = none := by
    apply cut_eq_none
    intro c hc
    rcases List.mem_append.mp hc with h | h
    · exact (hg c h).2.2
    · simp at h
      subst h
      decide
  have hdrop : dropNL (g ++ ['\n']) = g := by
    simp [dropNL, List.getLast?_concat]
  have hmem : ¬ '"' ∈ g := fun h => (hg _ h).2.1 rfl
  simp only [parseField, hhead, if_false, hcut, hdrop, hmem]

/-- A field that the writer leaves without quotes holds no newline, no
carriage return, no quote and no comma. -/
theorem fieldNeedsQuotes_false (g : List Char) (h : fieldNeedsQuotes g = false) :
    ∀ c ∈ g, c ≠ '\n' ∧ c ≠ '\r' ∧ c ≠ '"' ∧ c ≠ ',' := by
  intro c hc
  unfold fieldNeedsQuotes at h
  split at h
  · rename_i hnil
    subst hnil
    simp at hc
  · split at h
    · simp at h
    · split at h
      · simp at h
      · rename_i hany
        simp only [List.any_eq_true, not_exists, not_and, Bool.or_eq_true, beq_iff_eq] at hany
        have := hany c hc
        refine ⟨fun e => this (by simp [e]), fun e => this (by simp [e]),
          fun e => this (by simp [e]), fun e => this (by simp [e])⟩

/-- A field as the writer emits it, followed by a comma, is read back. -/
theorem parseAt_field_comma (g : List Char) (fuel : Nat) (text : List Char)
    (acc : List (List Char)) (hw : WrittenText (writeField g ++ ',' :: text))
    (hf : (writeField g ++ ',' :: text).length < fuel) :
    ∃ fuel', text.length < fuel' ∧
      parseAt fuel none (writeField g ++ ',' :: text) acc
        = parseAt fuel' none text (acc ++ [g]) := by
  cases fuel with
  | zero => simp at hf
  | succ f =>
    cases hq : fieldNeedsQuotes g with
    | false =>
      have hg := fieldNeedsQuotes_false g hq
      simp only [writeField, hq, Bool.false_eq_true, if_false] at hw hf ⊢
      refine ⟨f, ?_, parseAt_plain_comma f g text acc
        (fun c hc => ⟨(hg c hc).1, (hg c hc).2.2.1, (hg c hc).2.2.2⟩)⟩
      simp only [List.length_append, List.length_cons] at hf
      omega
    | true =>
      have he : writeField g ++ ',' :: text
          = '"' :: (writeQuoted g ++ '"' :: ',' :: text) := by
        simp [writeField, hq]
      rw [he] at hw hf ⊢
      rw [parseAt_open_quote]
      obtain ⟨f', hf', heq⟩ := parseAt_quoted_body g f [] (',' :: text) acc hw.tail
        (by simp only [List.length_cons] at hf ⊢; omega)
      cases f' with
      | zero => simp at hf'
      | succ f'' =>
        refine ⟨f'', ?_, ?_⟩
        · simp only [List.length_cons] at hf'
          omega
        · rw [heq, parseAt_quoted_comma]
          simp

/-- A field as the writer emits it, followed by the newline that ends the
record, is read back. -/
theorem parseAt_field_end (g : List Char) (fuel : Nat) (text : List Char)
    (acc : List (List Char)) (hw : WrittenText (writeField g ++ '\n' :: text))
    (hf : (writeField g ++ '\n' :: text).length < fuel) :
    parseAt fuel none (writeField g ++ '\n' :: text) acc = Except.ok (acc ++ [g], text) := by
  cases fuel with
  | zero => simp at hf
  | succ f =>
    cases hq : fieldNeedsQuotes g with
    | false =>
      have hg := fieldNeedsQuotes_false g hq
      simp only [writeField, hq, Bool.false_eq_true, if_false] at hw hf ⊢
      exact parseAt_plain_end f g text acc
        (fun c hc => ⟨(hg c hc).1, (hg c hc).2.2.1, (hg c hc).2.2.2⟩)
    | true =>
      have he : writeField g ++ '\n' :: text
          = '"' :: (writeQuoted g ++ '"' :: '\n' :: text) := by
        simp [writeField, hq]
      rw [he] at hw hf ⊢
      rw [parseAt_open_quote]
      obtain ⟨f', hf', heq⟩ := parseAt_quoted_body g f [] ('\n' :: text) acc hw.tail
        (by simp only [List.length_cons] at hf ⊢; omega)
      cases f' with
      | zero => simp at hf'
      | succ f'' =>
        rw [heq, parseAt_quoted_end]
        simp

/-- The fields of one record, as the writer emits them, are read back. -/
theorem parseAt_fields (gs : List (List Char)) :
    ∀ (n : Nat) (g : List Char) (fuel : Nat) (text : List Char) (acc : List (List Char)),
      WrittenText (writeField g ++ (writeFields (n + 1) gs ++ '\n' :: text)) →
      (writeField g ++ (writeFields (n + 1) gs ++ '\n' :: text)).length < fuel →
      parseAt fuel none (writeField g ++ (writeFields (n + 1) gs ++ '\n' :: text)) acc
        = Except.ok (acc ++ g :: gs, text) := by
  induction gs with
  | nil =>
    intro n g fuel text acc hw hf
    simp only [writeFields, List.nil_append] at hw hf ⊢
    exact parseAt_field_end g fuel text acc hw hf
  | cons g' gs ih =>
    intro n g fuel text acc hw hf
    have he : writeFields (n + 1) (g' :: gs) ++ '\n' :: text
        = ',' :: (writeField g' ++ (writeFields (n + 1 + 1) gs ++ '\n' :: text)) := by
      simp [writeFields]
    rw [he] at hw hf ⊢
    obtain ⟨f', hf', heq⟩ := parseAt_field_comma g fuel _ acc hw hf
    rw [heq, ih (n + 1) g' f' text (acc ++ [g]) (WrittenText.of_append hw).tail hf']
    simp

theorem hasCRLF_append (a b : List Char) (ha : hasCRLF a = false) (hb : hasCRLF b = false)
    (hjoin : a.getLast? ≠ some '\r' ∨ b.head? ≠ some '\n') : hasCRLF (a ++ b) = false := by
  induction a with
  | nil => exact hb
  | cons c t ih =>
    simp only [hasCRLF, Bool.or_eq_false_iff] at ha
    cases t with
    | nil =>
      simp only [List.cons_append, List.nil_append, hasCRLF, Bool.or_eq_false_iff]
      refine ⟨?_, hb⟩
      rcases hjoin with h | h
      · have hc : c ≠ '\r' := by simpa using h
        simp [hc]
      · simp [h]
    | cons d t' =>
      have hrec := ih ha.2 (by simpa using hjoin)
      simp only [List.cons_append, hasCRLF, Bool.or_eq_false_iff] at hrec ⊢
      exact ⟨by simpa using ha.1, hrec⟩

theorem head?_writeQuoted (g : List Char) : (writeQuoted g).head? = g.head? := by
  cases g with
  | nil => rfl
  | cons c t =>
    by_cases hq : c = '"'
    · subst hq
      simp [writeQuoted]
    · simp [writeQuoted, hq]

theorem hasCRLF_writeQuoted (g : List Char) : hasCRLF (writeQuoted g) = hasCRLF g := by
  induction g with
  | nil => rfl
  | cons c t ih =>
    by_cases hq : c = '"'
    · subst hq
      simp [writeQuoted, hasCRLF, ih]
    · simp [writeQuoted, hq, hasCRLF, ih, head?_writeQuoted]

/-- A piece of written text that can be followed by anything: it holds no
carriage return followed by a newline and does not end in a carriage return. -/
theorem hasCRLF_writeField (g : List Char) (hg : hasCRLF g = false) :
    hasCRLF (writeField g) = false ∧ (writeField g).getLast? ≠ some '\r' := by
  cases hq : fieldNeedsQuotes g with
  | false =>
    have hchars := fieldNeedsQuotes_false g hq
    simp only [writeField, hq, Bool.false_eq_true, if_false]
    refine ⟨hg, fun h => ?_⟩
    exact (hchars _ (List.mem_of_getLast?_eq_some h)).2.1 rfl
  | true =>
    simp only [writeField, hq, if_true]
    constructor
    · have h1 : hasCRLF (writeQuoted g ++ ['"']) = false :=
        hasCRLF_append _ _ (by rw [hasCRLF_writeQuoted, hg]) (by decide)
          (Or.inr (by decide))
      simp only [hasCRLF, Bool.or_eq_false_iff]
      exact ⟨by simp, h1⟩
    · rw [← List.cons_append, List.getLast?_concat]
      decide

theorem hasCRLF_writeFields (gs : List (List Char)) (hgs : ∀ g ∈ gs, hasCRLF g = false) :
    ∀ n : Nat, hasCRLF (writeFields n gs) = false ∧ (writeFields n gs).getLast? ≠ some '\r' := by
  induction gs with
  | nil =>
    intro n
    simp [writeFields, hasCRLF]
  | cons g gs ih =>
    intro n
    have hf := hasCRLF_writeField g (hgs g (by simp))
    have hr := ih (fun x hx => hgs x (by simp [hx])) (n + 1)
    have hsep : hasCRLF (if 0 < n then [','] else []) = false ∧
        (if 0 < n then [','] else []).getLast? ≠ some '\r' := by
      split <;> decide
    have h1 : hasCRLF ((if 0 < n then [','] else []) ++ writeField g) = false :=
      hasCRLF_append _ _ hsep.1 hf.1 (Or.inl hsep.2)
    have h1l : ((if 0 < n then [','] else []) ++ writeField g).getLast? ≠ some '\r' := by
      rw [List.getLast?_append]
      cases hl : (writeField g).getLast? with
      | none => simpa using hsep.2
      | some d =>
        have := hf.2
        rw [hl] at this
        simpa using this
    simp only [writeFields]
    refine ⟨hasCRLF_append _ _ h1 hr.1 (Or.inl h1l), ?_⟩
    rw [List.getLast?_append]
    cases hl : (writeFields (n + 1) gs).getLast? with
    | none => simpa using h1l
    | some d =>
      have := hr.2
      rw [hl] at this
      simpa using this

theorem csvWriteAll_eq (rows : List (List (List Char))) :
    csvWriteAll rows = rows.flatMap csvWrite := by
  have h : ∀ (l : List (List (List Char))) (out : List Char),
      l.foldl (fun out row => out ++ csvWrite row) out = out ++ l.flatMap csvWrite := by
    intro l
    induction l with
    | nil => intro out; simp
    | cons r t ih => intro out; simp [ih]
  simpa using h rows []

/-- The text written for rows without a carriage return followed by a newline
in any field. -/
theorem writtenText_rows (rows : List (List (List Char)))
    (hrows : ∀ row ∈ rows, ∀ g ∈ row, hasCRLF g = false) :
    WrittenText (rows.flatMap csvWrite) ∧ (rows.flatMap csvWrite).getLast? ≠ some '\r' := by
  induction rows with
  | nil => simp [WrittenText, hasCRLF]
  | cons row rows ih =>
    obtain ⟨⟨h1, h2⟩, h3⟩ := ih (fun r hr => hrows r (by simp [hr]))
    have hf := hasCRLF_writeFields row (hrows row (by simp)) 0
    have hrow : hasCRLF (csvWrite row) = false :=
      hasCRLF_append _ _ hf.1 (by decide) (Or.inl hf.2)
    have hrowl : (csvWrite row).getLast? = some '\n' := by
      simp [csvWrite, List.getLast?_concat]
    have hlast : (csvWrite row ++ rows.flatMap csvWrite).getLast? = some '\n' := by
      rw [List.getLast?_append]
      by_cases hnil : rows.flatMap csvWrite = []
      · rw [hnil, hrowl]
        rfl
      · rw [h2 hnil]
        rfl
    rw [List.flatMap_cons]
    refine ⟨⟨hasCRLF_append _ _ hrow h1 (Or.inl (by rw [hrowl]; decide)), fun _ => hlast⟩, ?_⟩
    rw [hlast]
    decide

theorem head?_writeField (g : List Char) : (writeField g).head? ≠ some '\n' := by
  cases hq : fieldNeedsQuotes g with
  | false =>
    have hchars := fieldNeedsQuotes_false g hq
    simp only [writeField, hq, Bool.false_eq_true, if_false]
    intro h
    cases g with
    | nil => simp at h
    | cons c t =>
      simp only [List.head?_cons, Option.some.injEq] at h
      exact (hchars c (by simp)).1 h
  | true =>
    simp [writeField, hq]

/-- One record of at least two fields, as the writer emits it, is read back by
`readRecord`. -/
theorem readRecord_csvWrite (g g' : List Char) (gs : List (List Char)) (fuel : Nat)
    (text : List Char) (hw : WrittenText (csvWrite (g :: g' :: gs) ++ text)) :
    readRecord (fuel + 1) (csvWrite (g :: g' :: gs) ++ text)
      = ReadResult.record (g :: g' :: gs) text := by
  have he : csvWrite (g :: g' :: gs) ++ text
      = writeField g ++ (writeFields (0 + 1) (g' :: gs) ++ '\n' :: text) := by
    simp [csvWrite, writeFields]
  have hne : (readSlice (csvWrite (g :: g' :: gs) ++ text)).1 ≠ [] := by
    intro h
    have := readSlice_eq_nil _ h
    simp [csvWrite] at this
  have hnl : (readSlice (csvWrite (g :: g' :: gs) ++ text)).1 ≠ ['\n'] := by
    intro h
    have hh := readSlice_eq_newline _ h
    rw [he] at hh
    have hf := head?_writeField g
    cases hwf : writeField g with
    | nil =>
      rw [hwf] at hh
      simp [writeFields] at hh
    | cons c t =>
      rw [hwf] at hh hf
      simp only [List.cons_append, List.head?_cons] at hh hf
      exact hf hh
  have hparse := parseAt_fields (g' :: gs) 0 g
    ((csvWrite (g :: g' :: gs) ++ text).length + 1) text [] (he ▸ hw) (by rw [← he]; omega)
  rw [← he] at hparse
  unfold parseAt at hparse
  simp only [readRecord, readLine_eq_readSlice _ hw, hne, hnl, if_false,
    readSlice_length, hparse, List.nil_append]

/-- The written text of a collection is read back row by row. -/
theorem readAllLoop_written (rows : List (List (List Char))) :
    ∀ (fuel : Nat) (expected : Option Nat) (acc : List (List (List Char))),
      (∀ row ∈ rows, row.length = 3) → WrittenText (rows.flatMap csvWrite) →
      rows.length < fuel → (expected = none ∨ expected = some 3) →
      readAllLoop fuel (rows.flatMap csvWrite) expected acc = Except.ok (acc ++ rows) := by
  induction rows with
  | nil =>
    intro fuel expected acc _ _ hf _
    cases fuel with
    | zero => simp at hf
    | succ f => simp [readAllLoop, readRecord, readLine, readSlice, normalizeLine]
  | cons row rows ih =>
    intro fuel expected acc hlen hw hf hexp
    cases fuel with
    | zero => simp at hf
    | succ f =>
      have h3 := hlen row (by simp)
      match row, h3 with
      | [a, b, c], _ =>
        rw [List.flatMap_cons] at hw ⊢
        have hrec := readRecord_csvWrite a b [c]
          (csvWrite [a, b, c] ++ rows.flatMap csvWrite).length (rows.flatMap csvWrite) hw
        have hrest := fun e => ih f e (acc ++ [[a, b, c]])
          (fun r hr => hlen r (by simp [hr])) (WrittenText.of_append hw)
          (by simp only [List.length_cons] at hf; omega)
        have hthree : ([a, b, c] : List (List Char)).length = 3 := rfl
        rcases hexp with he | he
        · subst he
          simp only [readAllLoop, hrec, hthree]
          rw [hrest (some 3) (Or.inr rfl)]
          simp
        · subst he
          simp only [readAllLoop, hrec, hthree, if_true]
          rw [hrest (some 3) (Or.inr rfl)]
          simp

theorem length_le_written (rows : List (List (List Char))) :
    rows.length ≤ (rows.flatMap csvWrite).length := by
  induction rows with
  | nil => simp
  | cons row rows ih =>
    simp only [List.flatMap_cons, List.length_cons, List.length_append, csvWrite,
      List.length_nil]
    omega

theorem appendRows_rowsOf (data acc : MSDSCourseCatalog) :
    appendRows ((rowsOf data).map fun row => row.map String.mk) acc = some (acc ++ data) := by
  induction data generalizing acc with
  | nil => simp [rowsOf, appendRows]
  | cons r t ih =>
    have := ih (acc ++ [r])
    simp only [rowsOf, List.map_cons, List.map_nil, appendRows] at this ⊢
    rw [this]
    simp

/-- The loop of `readCSVFile` panics as soon as a row has fewer than three
fields. -/
theorem appendRows_of_short (rows : List (List String)) (data : MSDSCourseCatalog)
    (h : ∃ row ∈ rows, row.length < 3) : appendRows rows data = none := by
  induction rows generalizing data with
  | nil => simp at h
  | cons row rows ih =>
    match row with
    | [] => rfl
    | [_] => rfl
    | [_, _] => rfl
    | a :: b :: c :: t =>
      simp only [appendRows]
      apply ih
      obtain ⟨r, hr, hlt⟩ := h
      rcases List.mem_cons.mp hr with he | hmem
      · subst he
        simp only [List.length_cons] at hlt
        omega
      · exact ⟨r, hmem, hlt⟩

/-- On rows of at least three fields the loop of `readCSVFile` appends, in row
order, one record per row, made of the first three fields as they are. -/
theorem appendRows_of_long (rows : List (List String)) (data : MSDSCourseCatalog)
    (h : ∀ row ∈ rows, 3 ≤ row.length) :
    appendRows rows data
      = some (data ++ rows.map fun row =>
          { CID := row.getD 0 "", CNAME := row.getD 1 "", CPREREQ := row.getD 2 "" }) := by
  induction rows generalizing data with
  | nil => simp [appendRows]
  | cons row rows ih =>
    have h3 := h row (by simp)
    match row, h3 with
    | a :: b :: c :: t, _ =>
      simp only [appendRows]
      rw [ih _ (fun r hr => h r (by simp [hr]))]
      simp

/-! ## Claims on the file -/

/-- C11 (the claim fails at these inputs): the collection that holds the one
record `("A", "x\r\ny", "1")` is saved without error as the text
`A,"x\r\ny",1\n`, and `readCSVFile` reads that text into the empty collection
without error as the record `("A", "x\ny", "1")`: the carriage return before
the newline is lost, the triples are not the same. And when `os.Create`
succeeds but the first write fails, `saveCSVFile` on the collection `[A, B]`
still returns no error and leaves an empty file, from which `readCSVFile`
reads no record. -/
theorem round_trip_loses_carriage_return :
    (saveCSVFile envWriteFail plainState).2 = none ∧
    (saveCSVFile envWriteFail plainState).1.csvfile = some "" ∧
    readCSVFile none
        { data := [], index := Index.empty,
          csvfile := (saveCSVFile envWriteFail plainState).1.csvfile }
      = some ({ data := [], index := Index.empty, csvfile := some "" }, none) ∧
    (saveCSVFile envOk crlfState).2 = none ∧
    (saveCSVFile envOk crlfState).1.csvfile = some "A,\"x\r\ny\",1\n" ∧
    (∃ s', readCSVFile none
        { data := [], index := Index.empty,
          csvfile := (saveCSVFile envOk crlfState).1.csvfile } = some (s', none) ∧
      s'.data = [{ CID := "A", CNAME := "x\ny", CPREREQ := "1" }]) ∧
    ¬ ∃ s', readCSVFile none
        { data := [], index := Index.empty,
          csvfile := (saveCSVFile envOk crlfState).1.csvfile } = some (s', none) ∧
      s'.data = crlfState.data := by
  have hread : readCSVFile none
      { data := [], index := Index.empty,
        csvfile := (saveCSVFile envOk crlfState).1.csvfile }
      = some ({ data := [{ CID := "A", CNAME := "x\ny", CPREREQ := "1" }],
                index := Index.empty,
                csvfile := (saveCSVFile envOk crlfState).1.csvfile }, none) := by
    rfl
  refine ⟨rfl, rfl, rfl, rfl, rfl, ⟨_, hread, rfl⟩, ?_⟩
  rintro ⟨s', hs', hd⟩
  rw [hread] at hs'
  simp only [Option.some.injEq, Prod.mk.injEq, and_true] at hs'
  rw [← hs'] at hd
  revert hd
  decide

/-- C11, amended: when `os.Create` succeeds, every `Write` and the `Flush`
succeed, and no field of the collection holds a carriage return immediately
followed by a newline, `saveCSVFile` returns no error, and `readCSVFile` on
the written file, started from the empty collection, returns no error and
yields the same records in the same order. -/
theorem save_then_read_round_trip (env : Env) (s : State) (hcreate : env.createErr = none)
    (hwrite : env.writeFail = none)
    (hfields : ∀ r ∈ s.data, NoCRLF r.CID ∧ NoCRLF r.CNAME ∧ NoCRLF r.CPREREQ) :
    (saveCSVFile env s).2 = none ∧
    ∃ s', readCSVFile none
        { data := [], index := (saveCSVFile env s).1.index,
          csvfile := (saveCSVFile env s).1.csvfile } = some (s', none) ∧
      s'.data = s.data := by
  have hrows : ∀ row ∈ rowsOf s.data, ∀ g ∈ row, hasCRLF g = false := by
    intro row hrow g hg
    obtain ⟨r, hr, rfl⟩ := List.mem_map.mp hrow
    obtain ⟨h1, h2, h3⟩ := hfields r hr
    simp only [List.mem_cons, List.mem_singleton, List.not_mem_nil, or_false] at hg
    rcases hg with rfl | rfl | rfl
    · exact h1
    · exact h2
    · exact h3
  have hlen : ∀ row ∈ rowsOf s.data, row.length = 3 := by
    intro row hrow
    obtain ⟨r, -, rfl⟩ := List.mem_map.mp hrow
    rfl
  have hall : readAll (csvWriteAll (rowsOf s.data)) = Except.ok (rowsOf s.data) := by
    rw [csvWriteAll_eq]
    have := readAllLoop_written (rowsOf s.data)
      ((List.flatMap (rowsOf s.data) csvWrite).length + 1) none [] hlen
      (writtenText_rows _ hrows).1 (by have := length_le_written (rowsOf s.data); omega)
      (Or.inl rfl)
    simpa [readAll] using this
  refine ⟨by simp [saveCSVFile, hcreate], ?_⟩
  simp only [saveCSVFile, hcreate, reachesFile, hwrite, readCSVFile, hall, appendRows_rowsOf]
  exact ⟨_, rfl, by simp⟩

/-- C11 at a concrete input: a collection whose fields hold a leading space,
a quote, a comma, a newline, a lone carriage return and an empty string. -/
theorem save_then_read_round_trip_witness :
    (saveCSVFile envOk quotedState).2 = none ∧
    ∃ s', readCSVFile none
        { data := [], index := (saveCSVFile envOk quotedState).1.index,
          csvfile := (saveCSVFile envOk quotedState).1.csvfile } = some (s', none) ∧
      s'.data = quotedState.data :=
  save_then_read_round_trip envOk quotedState rfl rfl (by decide)

/-- C12 (the code departs from the claim): the file that holds the one row
`A,Algebra` is parsed by `ReadAll` without error into one row of two fields,
and `readCSVFile` then panics on the element access `line[2]` where the claim
has it return an error. -/
theorem readCSVFile_short_row_panics :
    shortRowState.csvfile = some "A,Algebra\n" ∧
    readAll "A,Algebra\n".data = Except.ok [["A".data, "Algebra".data]] ∧
    readCSVFile none shortRowState = none := by
  refine ⟨rfl, rfl, rfl⟩

end Msds
